import Mathlib

/-!
Verification of the Minesweeper core game logic (`src/minesweeper.ts`).

The TypeScript classes `Cell` and `GameBoard` are shallowly embedded as Lean
structures, with the mutable 2D cell array modelled as a total function from
grid positions to cells (the source only ever indexes it in range; an
out-of-range access in the source is a runtime fault, which no claim
exercises).  Loops over the whole grid are modelled as folds over the
row-major list of in-range positions, matching the source's iteration order.
The two sources of partiality in the reference are made explicit:

* `Math.random()` draws inside `placeMines` become an ambient stream
  `draws : Nat → Position` of drawn (row, col) pairs, and the potentially
  nonterminating `while` loop becomes the step-indexed iteration `mineRun`
  (the loop has terminated by step `k` iff the placed-mine counter at step
  `k` equals `totalMines`; after that the iteration is frozen, like the
  loop after its exit).
* the recursion of `revealCellRecursive` is driven by a fuel parameter;
  `rows * cols + 1` fuel is provably enough, since every level of the
  recursion that does work reveals a previously hidden in-range cell.
-/

namespace Minesweeper

/-- CellState from the source: visibility of a cell (enum CellState). -/
inductive CellState where
  | Hidden
  | Revealed
  | Flagged
deriving DecidableEq, Repr

/-- Position from the source: a (row, col) pair of zero-based indices. -/
structure Position where
  row : Nat
  col : Nat
deriving DecidableEq, Repr

/-- Cell from the source.  The source's `position` field is omitted: it is
fixed at creation to the cell's grid coordinates and read only by the UI
layer, so it is determined by where the cell sits in the grid. -/
structure Cell where
  isMine : Bool
  adjacentMines : Nat
  state : CellState
deriving DecidableEq, Repr

/-- Cell.reveal: refuses a Flagged cell, otherwise sets Revealed; returns
the new cell together with the source's boolean result. -/
def Cell.reveal (c : Cell) : Cell × Bool :=
  if c.state = CellState.Flagged then (c, false)
  else ({ c with state := CellState.Revealed }, true)

/-- Cell.toggleFlag: no-op on a Revealed cell, otherwise flips
Hidden and Flagged; returns the new cell and the new state (the source
mutates and returns the state). -/
def Cell.toggleFlag (c : Cell) : Cell × CellState :=
  if c.state = CellState.Revealed then (c, c.state)
  else
    let s := if c.state = CellState.Hidden then CellState.Flagged else CellState.Hidden
    ({ c with state := s }, s)

/-- RevealResult from the source. -/
structure RevealResult where
  success : Bool
  hitMine : Bool
  cellsRevealed : List Position
deriving DecidableEq, Repr

/-- GameBoard from the source: dimensions, total mine count, the cell grid
(as a total function on positions; the source's `Cell[][]` is only indexed
in range), and the first-click flag. -/
structure Board where
  rows : Nat
  cols : Nat
  totalMines : Nat
  cells : Position → Cell
  isFirstClick : Bool

/-- Writing one entry of the cell grid (the effect of mutating one `Cell`
object owned by the board). -/
def setCell (b : Board) (p : Position) (c : Cell) : Board :=
  { b with cells := fun q => if q = p then c else b.cells q }

/-- A position that actually indexes into the rows x cols grid. -/
def inRange (b : Board) (p : Position) : Prop :=
  p.row < b.rows ∧ p.col < b.cols

instance (b : Board) (p : Position) : Decidable (inRange b p) :=
  inferInstanceAs (Decidable (p.row < b.rows ∧ p.col < b.cols))

/-- Row-major list of all in-range positions, the iteration order of every
`for (row) for (col)` double loop in the source. -/
def allPositions (rows cols : Nat) : List Position :=
  (List.range rows).flatMap fun r => (List.range cols).map fun c => ⟨r, c⟩

/-- Constructor plus initializeBoard: a fresh all-Hidden, mine-free board
with `isFirstClick = true`. -/
def newBoard (rows cols mines : Nat) : Board :=
  { rows := rows, cols := cols, totalMines := mines
    cells := fun _ => ⟨false, 0, CellState.Hidden⟩
    isFirstClick := true }

/-- Neighborhood iteration of the source's double loop
`for (r = max(0,row-1); r <= min(rows-1,row+1); r++)
 for (c = max(0,col-1); c <= min(cols-1,col+1); c++)` skipping the center:
the up-to-8 edge-clamped neighbors, in row-then-column order.  Natural
subtraction realizes `Math.max(0, x - 1)`. -/
def nbhd (rows cols row col : Nat) : List Position :=
  (List.range' (row - 1) (min (rows - 1) (row + 1) + 1 - (row - 1))).flatMap fun r =>
    (List.range' (col - 1) (min (cols - 1) (col + 1) + 1 - (col - 1))).filterMap fun c =>
      if r = row ∧ c = col then none else some ⟨r, c⟩

/-- countAdjacentMines from the source: number of mine-bearing cells among
the edge-clamped neighbors of (row, col). -/
def countAdjacentMines (b : Board) (row col : Nat) : Nat :=
  List.countP (fun p => (b.cells p).isMine) (nbhd b.rows b.cols row col)

/-- Body of the calculateAdjacentMines double loop at one position: skip
mine cells, otherwise store the neighbor mine count. -/
def calcStep (b : Board) (p : Position) : Board :=
  if (b.cells p).isMine = true then b
  else setCell b p { b.cells p with adjacentMines := countAdjacentMines b p.row p.col }

/-- calculateAdjacentMines from the source: the double loop over the grid. -/
def calculateAdjacentMines (b : Board) : Board :=
  (allPositions b.rows b.cols).foldl calcStep b

/-- One iteration of the placeMines while loop, given the drawn position:
if the counter has reached totalMines the loop has exited and the state is
frozen; otherwise a draw equal to the safe position or hitting an existing
mine is skipped (`continue`), and any other draw places a mine and bumps
the counter. -/
def mineStep (safe : Position) (st : Board × Nat) (d : Position) : Board × Nat :=
  if st.2 < st.1.totalMines then
    if d = safe ∨ (st.1.cells d).isMine = true then st
    else (setCell st.1 d { st.1.cells d with isMine := true }, st.2 + 1)
  else st

/-- State of the placeMines loop after consuming the first k random draws,
starting from board b with the placed-mine counter at 0. -/
def mineRun (b : Board) (safe : Position) (draws : Nat → Position) : Nat → Board × Nat
  | 0 => (b, 0)
  | k + 1 => mineStep safe (mineRun b safe draws k) (draws k)

/-- Result of placeMines when its loop finishes within k draws: the mined
board followed by the adjacency recomputation. -/
def placeMinesAt (b : Board) (safe : Position) (draws : Nat → Position) (k : Nat) : Board :=
  calculateAdjacentMines (mineRun b safe draws k).1

/-- revealCellRecursive from the source, with explicit recursion fuel: stop
on a non-Hidden cell, otherwise reveal it and record its position, and if
its adjacency count is zero recurse over the edge-clamped neighbors in
row-then-column order.  The source appends into a shared `revealedCells`
array; here each call returns the list of positions it revealed, in the same
temporal order. -/
def revealRec : Nat → Board → Nat → Nat → Board × List Position
  | 0, b, _, _ => (b, [])
  | fuel + 1, b, row, col =>
    let cell := b.cells ⟨row, col⟩
    if cell.state ≠ CellState.Hidden then (b, [])
    else
      let b1 := setCell b ⟨row, col⟩ (cell.reveal).1
      if cell.adjacentMines = 0 then
        (nbhd b.rows b.cols row col).foldl
          (fun st p =>
            let r := revealRec fuel st.1 p.row p.col
            (r.1, st.2 ++ r.2))
          (b1, [⟨row, col⟩])
      else (b1, [⟨row, col⟩])

/-- One neighbor visit inside the recursion of `revealRec` (the fold body
written as a named function, to state lemmas about the fold). -/
def revealStep (fuel : Nat) (st : Board × List Position) (p : Position) : Board × List Position :=
  let r := revealRec fuel st.1 p.row p.col
  (r.1, st.2 ++ r.2)

/-- Steps 2-4 of revealCell (everything after the first-click placement):
reject a non-Hidden target, reveal a mine target alone, otherwise run the
recursive flood fill (with provably sufficient fuel). -/
def revealCellFrom (b : Board) (p : Position) : Board × RevealResult :=
  let cell := b.cells p
  if cell.state ≠ CellState.Hidden then (b, ⟨false, false, []⟩)
  else if cell.isMine = true then (setCell b p (cell.reveal).1, ⟨true, true, [p]⟩)
  else
    let r := revealRec (b.rows * b.cols + 1) b p.row p.col
    (r.1, ⟨true, false, r.2⟩)

/-- revealCell from the source: on the very first call, clear the
first-click flag and run placeMines seeded at the target; then the state
check and reveal logic.  `pf` is the number of random draws the placement
loop is given; `none` models the loop still running after those draws. -/
def revealCell (pf : Nat) (draws : Nat → Position) (b : Board) (p : Position) :
    Option (Board × RevealResult) :=
  if b.isFirstClick = true then
    let b1 : Board := { b with isFirstClick := false }
    let st := mineRun b1 p draws pf
    if st.2 = b1.totalMines then some (revealCellFrom (calculateAdjacentMines st.1) p)
    else none
  else some (revealCellFrom b p)

/-- GameBoard.toggleFlag: delegate to the cell's toggleFlag and report
whether the new state is Flagged. -/
def Board.toggleFlag (b : Board) (p : Position) : Board × Bool :=
  let r := (b.cells p).toggleFlag
  (setCell b p r.1, decide (r.2 = CellState.Flagged))

/-- checkWinCondition from the source: false iff some in-range non-mine
cell is not Revealed. -/
def checkWinCondition (b : Board) : Bool :=
  (allPositions b.rows b.cols).all fun p =>
    (b.cells p).isMine || decide ((b.cells p).state = CellState.Revealed)

/-- Body of the revealAllMines double loop at one position: call `reveal`
on the cell if it holds a mine. -/
def revealMineStep (b : Board) (p : Position) : Board :=
  if (b.cells p).isMine = true then setCell b p ((b.cells p).reveal).1 else b

/-- revealAllMines from the source: call `reveal` on every in-range mine
cell (note `Cell.reveal` refuses Flagged cells). -/
def revealAllMines (b : Board) : Board :=
  (allPositions b.rows b.cols).foldl revealMineStep b

/-- Number of in-range cells currently carrying a mine. -/
def countMines (b : Board) : Nat :=
  List.countP (fun p => (b.cells p).isMine) (allPositions b.rows b.cols)

/-- Number of in-range cells whose visibility is Hidden. -/
def hiddenCount (b : Board) : Nat :=
  List.countP (fun p => decide ((b.cells p).state = CellState.Hidden))
    (allPositions b.rows b.cols)

/-- Adjacency counts agree with the mine layout: every in-range non-mine
cell stores exactly its neighbor mine count (the state `placeMines`
establishes and later operations preserve). -/
def Consistent (b : Board) : Prop :=
  ∀ r, r < b.rows → ∀ c, c < b.cols →
    (b.cells ⟨r, c⟩).isMine = false →
    (b.cells ⟨r, c⟩).adjacentMines = countAdjacentMines b r c

instance (b : Board) : Decidable (Consistent b) := by
  unfold Consistent; infer_instance

/-- Spec-words neighbor relation: q is one of the up-to-8 grid neighbors of
p (Chebyshev distance at most 1, not p itself); no wraparound since
coordinates are plain naturals. -/
def IsNeighbor (p q : Position) : Prop :=
  q ≠ p ∧ q.row ≤ p.row + 1 ∧ p.row ≤ q.row + 1 ∧ q.col ≤ p.col + 1 ∧ p.col ≤ q.col + 1

instance (p q : Position) : Decidable (IsNeighbor p q) := by
  unfold IsNeighbor; infer_instance

/-- Spec-words adjacency count ("the number of mine-bearing cells among its
up-to-8 grid neighbors, with neighborhoods clamped at board edges"),
written independently of the source's loop, for the refinement claim C4. -/
def specNeighborMineCount (b : Board) (p : Position) : Nat :=
  List.countP (fun q => decide (IsNeighbor p q ∧ (b.cells q).isMine = true))
    (allPositions b.rows b.cols)

/-- Positions reachable from p through in-range Hidden zero-adjacency
cells: the start itself, plus every neighbor of a reachable cell that is
Hidden with adjacency count 0.  This is the region the flood fill covers. -/
inductive ReachH (b : Board) (p : Position) : Position → Prop
  | refl : ReachH b p p
  | step {q r : Position} :
      ReachH b p q → inRange b q → (b.cells q).state = CellState.Hidden →
      (b.cells q).adjacentMines = 0 → r ∈ nbhd b.rows b.cols q.row q.col →
      ReachH b p r

/-- Positions reachable from p through in-range zero-adjacency cells
regardless of visibility: the "connected region of zero-adjacency cells" in
the claim's literal sense. -/
inductive ReachZ (b : Board) (p : Position) : Position → Prop
  | refl : ReachZ b p p
  | step {q r : Position} :
      ReachZ b p q → inRange b q → (b.cells q).adjacentMines = 0 →
      r ∈ nbhd b.rows b.cols q.row q.col →
      ReachZ b p r

/-- The second board is the first with some set of Hidden cells turned
Revealed and nothing else changed: the only kind of mutation
`revealCellRecursive` performs. -/
def OnlyReveals (b b2 : Board) : Prop :=
  b2.rows = b.rows ∧ b2.cols = b.cols ∧ b2.totalMines = b.totalMines ∧
  b2.isFirstClick = b.isFirstClick ∧
  ∀ q, b2.cells q = b.cells q ∨
    ((b.cells q).state = CellState.Hidden ∧
     b2.cells q = { b.cells q with state := CellState.Revealed })

/-- Concrete 1 x 1 board holding a single Flagged mine. -/
def bC1x : Board := ⟨1, 1, 1, fun _ => ⟨true, 0, CellState.Flagged⟩, false⟩

/-- Concrete 1 x 2 board with a Hidden mine at (0,0) and a Flagged mine at
(0,1). -/
def bW1 : Board :=
  ⟨1, 2, 2, fun q => if q = ⟨0, 1⟩ then ⟨true, 0, CellState.Flagged⟩
    else ⟨true, 0, CellState.Hidden⟩, false⟩

/-- Concrete 2 x 2 board, mine at (1,1) still Hidden, every other cell
Revealed with adjacency 1. -/
def bWin : Board :=
  ⟨2, 2, 1, fun q => if q = ⟨1, 1⟩ then ⟨true, 0, CellState.Hidden⟩
    else ⟨false, 1, CellState.Revealed⟩, false⟩

/-- Concrete 2 x 2 board, mine at (1,1), everything Hidden, adjacency
precomputed. -/
def bHid : Board :=
  ⟨2, 2, 1, fun q => if q = ⟨1, 1⟩ then ⟨true, 0, CellState.Hidden⟩
    else ⟨false, 1, CellState.Hidden⟩, false⟩

/-- Concrete 1 x 3 mine-free all-zero-adjacency board whose middle cell is
Flagged: the Flagged cell splits the zero region in two. -/
def bC2x : Board :=
  ⟨1, 3, 0, fun q => if q = ⟨0, 1⟩ then ⟨false, 0, CellState.Flagged⟩
    else ⟨false, 0, CellState.Hidden⟩, false⟩

/-- Concrete 2 x 2 mine-free all-Hidden board with zero adjacency counts. -/
def bW2 : Board := ⟨2, 2, 0, fun _ => ⟨false, 0, CellState.Hidden⟩, false⟩

/-- Concrete 1 x 1 mine-free board whose only cell is Flagged, first click
still pending. -/
def bFlag : Board := ⟨1, 1, 0, fun _ => ⟨false, 0, CellState.Flagged⟩, true⟩

/-- Constant draw stream hitting (1,1). -/
def drawsW : Nat → Position := fun _ => ⟨1, 1⟩

/-- Constant draw stream hitting (0,0). -/
def drawsW0 : Nat → Position := fun _ => ⟨0, 0⟩

/-- Row-then-column (lexicographic) order on positions, the temporal order
in which the source's double loops visit the grid. -/
def posLT (a b : Position) : Prop :=
  a.row < b.row ∨ (a.row = b.row ∧ a.col < b.col)

instance : IsIrrefl Position posLT :=
  ⟨fun a h => by rcases h with h | ⟨_, h⟩ <;> omega⟩

theorem Position.eq_mk (q : Position) (r c : Nat) :
    q = ⟨r, c⟩ ↔ q.row = r ∧ q.col = c := by
  constructor
  · intro h; subst h; exact ⟨rfl, rfl⟩
  · rintro ⟨h1, h2⟩; cases q; cases h1; cases h2; rfl

theorem setCell_cells (b : Board) (p : Position) (c : Cell) (q : Position) :
    (setCell b p c).cells q = if q = p then c else b.cells q := rfl

theorem setCell_rows (b : Board) (p : Position) (c : Cell) : (setCell b p c).rows = b.rows := rfl

theorem setCell_cols (b : Board) (p : Position) (c : Cell) : (setCell b p c).cols = b.cols := rfl

theorem mem_allPositions (rows cols : Nat) (p : Position) :
    p ∈ allPositions rows cols ↔ p.row < rows ∧ p.col < cols := by
  unfold allPositions
  simp only [List.mem_flatMap, List.mem_map, List.mem_range]
  constructor
  · rintro ⟨r, hr, c, hc, rfl⟩; exact ⟨hr, hc⟩
  · rintro ⟨hr, hc⟩
    exact ⟨p.row, hr, p.col, hc, by cases p; rfl⟩

theorem nodup_allPositions (rows cols : Nat) : (allPositions rows cols).Nodup := by
  unfold allPositions
  rw [List.nodup_flatMap]
  constructor
  · intro r _
    apply List.Nodup.map ?_ (List.nodup_range cols)
    intro c1 c2 h
    injection h
  · apply List.Pairwise.imp ?_ (List.nodup_range rows)
    intro r1 r2 hne q hq1 hq2
    simp only [Function.onFun, List.mem_map, List.mem_range] at hq1 hq2
    obtain ⟨c1, _, rfl⟩ := hq1
    obtain ⟨c2, _, h⟩ := hq2
    exact hne (congrArg Position.row h).symm

theorem length_allPositions (rows cols : Nat) :
    (allPositions rows cols).length = rows * cols := by
  induction rows with
  | zero => simp [allPositions]
  | succ n ih =>
      unfold allPositions at ih ⊢
      rw [List.range_succ, List.flatMap_append, List.length_append, ih]
      simp [Nat.succ_mul]

theorem countP_set (l : List Position) (hnd : l.Nodup) (p : Position) (hp : p ∈ l)
    (f g : Position → Bool) (hoff : ∀ q, q ≠ p → g q = f q) :
    List.countP g l + (if f p then 1 else 0) = List.countP f l + (if g p then 1 else 0) := by
  induction l with
  | nil => cases hp
  | cons a t ih =>
      rw [List.countP_cons, List.countP_cons]
      by_cases ha : a = p
      · subst ha
        have hnot : a ∉ t := (List.nodup_cons.mp hnd).1
        have : List.countP g t = List.countP f t := by
          apply List.countP_congr
          intro x hx
          rw [hoff x (fun h => hnot (h ▸ hx))]
        rw [this]; omega
      · have hp' : p ∈ t := by
          rcases List.mem_cons.mp hp with h | h
          · exact absurd h.symm ha
          · exact h
        have := ih (List.nodup_cons.mp hnd).2 hp'
        rw [hoff a ha]
        omega

theorem countP_lt_of_mem_false (l : List Position) (p : Position) (hp : p ∈ l)
    (f : Position → Bool) (hf : f p = false) :
    List.countP f l < l.length := by
  induction l with
  | nil => cases hp
  | cons a t ih =>
      rw [List.countP_cons, List.length_cons]
      rcases List.mem_cons.mp hp with h | h
      · subst h
        rw [hf]
        have h1 : List.countP f t ≤ t.length := List.countP_le_length f
        simp only [Bool.false_eq_true, if_false]
        omega
      · have h1 := ih h
        have h2 : (if f a = true then 1 else 0) ≤ 1 := by split <;> omega
        omega

theorem mem_nbhd (rows cols row col : Nat) (q : Position) :
    q ∈ nbhd rows cols row col ↔
      row - 1 ≤ q.row ∧ q.row ≤ min (rows - 1) (row + 1) ∧
      col - 1 ≤ q.col ∧ q.col ≤ min (cols - 1) (col + 1) ∧
      ¬(q.row = row ∧ q.col = col) := by
  unfold nbhd
  simp only [List.mem_flatMap, List.mem_filterMap, List.mem_range'_1]
  constructor
  · rintro ⟨r, ⟨hr1, hr2⟩, c, ⟨hc1, hc2⟩, hif⟩
    split at hif
    · cases hif
    · rename_i hcond
      cases Option.some.inj hif
      dsimp only
      exact ⟨hr1, by omega, hc1, by omega, hcond⟩
  · rintro ⟨h1, h2, h3, h4, h5⟩
    refine ⟨q.row, ⟨h1, by omega⟩, q.col, ⟨h3, by omega⟩, ?_⟩
    rw [if_neg h5]

theorem nbhd_subset (rows cols row col : Nat) (hr : row < rows) (hc : col < cols)
    (q : Position) (hq : q ∈ nbhd rows cols row col) :
    q.row < rows ∧ q.col < cols := by
  rw [mem_nbhd] at hq
  omega

theorem nbhd_sorted (rows cols row col : Nat) :
    List.Pairwise posLT (nbhd rows cols row col) := by
  unfold nbhd
  rw [List.flatMap_def, List.pairwise_flatten]
  constructor
  · intro l hl
    simp only [List.mem_map] at hl
    obtain ⟨r, _, rfl⟩ := hl
    apply List.Pairwise.filterMap
    · intro c1 c2 hlt x hx y hy
      split at hx
      · cases hx
      · split at hy
        · cases hy
        · cases Option.some.inj hx; cases Option.some.inj hy
          exact Or.inr ⟨rfl, hlt⟩
    · exact List.pairwise_lt_range' _ _
  · rw [List.pairwise_map]
    apply List.Pairwise.imp ?_ (List.pairwise_lt_range' _ _)
    intro r1 r2 hlt x hx y hy
    simp only [List.mem_filterMap] at hx hy
    obtain ⟨c1, _, hx⟩ := hx
    obtain ⟨c2, _, hy⟩ := hy
    split at hx
    · cases hx
    · split at hy
      · cases hy
      · cases Option.some.inj hx; cases Option.some.inj hy
        exact Or.inl hlt

theorem nbhd_nodup (rows cols row col : Nat) : (nbhd rows cols row col).Nodup :=
  (nbhd_sorted rows cols row col).nodup

theorem countAdjacentMines_congr (b1 b2 : Board) (row col : Nat)
    (hr : b1.rows = b2.rows) (hc : b1.cols = b2.cols)
    (hm : ∀ q, (b1.cells q).isMine = (b2.cells q).isMine) :
    countAdjacentMines b1 row col = countAdjacentMines b2 row col := by
  unfold countAdjacentMines
  rw [hr, hc]
  exact List.countP_congr (fun q _ => by rw [hm q])

theorem mem_nbhd_iff_neighbor (rows cols row col : Nat) (hr : row < rows) (hc : col < cols)
    (q : Position) :
    q ∈ nbhd rows cols row col ↔
      (q.row < rows ∧ q.col < cols ∧ IsNeighbor ⟨row, col⟩ q) := by
  rw [mem_nbhd]
  unfold IsNeighbor
  simp only [ne_eq, Position.eq_mk]
  omega

theorem countAdjacentMines_eq_spec (b : Board) (row col : Nat)
    (hr : row < b.rows) (hc : col < b.cols) :
    countAdjacentMines b row col = specNeighborMineCount b ⟨row, col⟩ := by
  unfold countAdjacentMines specNeighborMineCount
  have h1 : List.countP (fun q => decide (IsNeighbor ⟨row, col⟩ q ∧ (b.cells q).isMine = true))
      (allPositions b.rows b.cols) =
      List.countP (fun q => (b.cells q).isMine)
        (List.filter (fun q => decide (IsNeighbor ⟨row, col⟩ q)) (allPositions b.rows b.cols)) := by
    rw [List.countP_filter]
    apply List.countP_congr
    intro q _
    simp [Bool.and_eq_true, decide_eq_true_eq, And.comm]
  rw [h1]
  have hperm : (List.filter (fun q => decide (IsNeighbor ⟨row, col⟩ q))
      (allPositions b.rows b.cols)).Perm (nbhd b.rows b.cols row col) := by
    rw [List.perm_ext_iff_of_nodup ((nodup_allPositions _ _).filter _) (nbhd_nodup _ _ _ _)]
    intro q
    rw [List.mem_filter, mem_allPositions, mem_nbhd_iff_neighbor _ _ _ _ hr hc]
    simp [decide_eq_true_eq, and_assoc]
  exact (List.Perm.countP_eq _ hperm).symm

theorem Cell.reveal_isMine (c : Cell) : (c.reveal).1.isMine = c.isMine := by
  unfold Cell.reveal; split <;> rfl

theorem Cell.reveal_adjacentMines (c : Cell) : (c.reveal).1.adjacentMines = c.adjacentMines := by
  unfold Cell.reveal; split <;> rfl

theorem Cell.reveal_state_hidden (c : Cell) (h : c.state = CellState.Hidden) :
    (c.reveal).1 = { c with state := CellState.Revealed } := by
  unfold Cell.reveal
  rw [if_neg (by rw [h]; intro hc; cases hc)]

theorem Cell.reveal_flagged (c : Cell) (h : c.state = CellState.Flagged) :
    (c.reveal).1 = c := by
  unfold Cell.reveal
  rw [if_pos h]

theorem foldl_preserves {α : Type} (g : Board → α) (f : Board → Position → Board)
    (hf : ∀ b p, g (f b p) = g b) :
    ∀ (l : List Position) (b : Board), g (l.foldl f b) = g b := by
  intro l
  induction l with
  | nil => intro b; rfl
  | cons a t ih => intro b; rw [List.foldl_cons, ih, hf]

theorem revealMineStep_isMine (b : Board) (p q : Position) :
    ((revealMineStep b p).cells q).isMine = (b.cells q).isMine := by
  unfold revealMineStep
  split
  · rw [setCell_cells]
    split
    · rename_i hq2; subst hq2; rw [Cell.reveal_isMine]
    · rfl
  · rfl

theorem revealMineStep_cells_ne (b : Board) (p q : Position) (h : q ≠ p) :
    (revealMineStep b p).cells q = b.cells q := by
  unfold revealMineStep
  split
  · rw [setCell_cells, if_neg h]
  · rfl

theorem foldRevealMines_cells (l : List Position) (hnd : l.Nodup) :
    ∀ (b : Board) (q : Position),
      (l.foldl revealMineStep b).cells q =
        if q ∈ l ∧ (b.cells q).isMine = true then ((b.cells q).reveal).1 else b.cells q := by
  induction l with
  | nil => intro b q; simp
  | cons a t ih =>
      intro b q
      rw [List.foldl_cons]
      by_cases hq : q = a
      · subst hq
        have hnot : q ∉ t := (List.nodup_cons.mp hnd).1
        rw [ih (List.nodup_cons.mp hnd).2, if_neg (fun hcon => hnot hcon.1)]
        unfold revealMineStep
        split
        · rename_i hm
          rw [setCell_cells, if_pos rfl, if_pos ⟨List.mem_cons_self _ _, hm⟩]
        · rename_i hm
          rw [if_neg (fun hcon => hm hcon.2)]
      · have hcells : (revealMineStep b a).cells q = b.cells q := revealMineStep_cells_ne b a q hq
        rw [ih (List.nodup_cons.mp hnd).2, hcells]
        by_cases hmem : q ∈ t
        · simp only [List.mem_cons, hmem, or_true, hq]
        · have h1 : ¬(q ∈ t ∧ (b.cells q).isMine = true) := fun hcon => hmem hcon.1
          have h2 : ¬(q ∈ a :: t ∧ (b.cells q).isMine = true) := by
            rintro ⟨hmem2, hm2⟩
            rcases List.mem_cons.mp hmem2 with h | h
            · exact hq h
            · exact hmem h
          rw [if_neg h1, if_neg h2]

theorem revealAllMines_cells (b : Board) (q : Position) :
    (revealAllMines b).cells q =
      if (q.row < b.rows ∧ q.col < b.cols) ∧ (b.cells q).isMine = true
      then ((b.cells q).reveal).1 else b.cells q := by
  unfold revealAllMines
  rw [foldRevealMines_cells _ (nodup_allPositions _ _)]
  simp only [mem_allPositions]

theorem calcStep_isMine (b : Board) (p q : Position) :
    ((calcStep b p).cells q).isMine = (b.cells q).isMine := by
  unfold calcStep
  split
  · rfl
  · rw [setCell_cells]
    split
    · rename_i hq2; subst hq2; rfl
    · rfl

theorem calcStep_state (b : Board) (p q : Position) :
    ((calcStep b p).cells q).state = (b.cells q).state := by
  unfold calcStep
  split
  · rfl
  · rw [setCell_cells]
    split
    · rename_i hq2; subst hq2; rfl
    · rfl

theorem calcStep_rows (b : Board) (p : Position) : (calcStep b p).rows = b.rows := by
  unfold calcStep; split <;> rfl

theorem calcStep_cols (b : Board) (p : Position) : (calcStep b p).cols = b.cols := by
  unfold calcStep; split <;> rfl

theorem calcStep_cells_ne (b : Board) (p q : Position) (h : q ≠ p) :
    (calcStep b p).cells q = b.cells q := by
  unfold calcStep
  split
  · rfl
  · rw [setCell_cells, if_neg h]

theorem foldCalc_isMine (l : List Position) (b : Board) (q : Position) :
    ((l.foldl calcStep b).cells q).isMine = (b.cells q).isMine :=
  foldl_preserves (fun b => (b.cells q).isMine) calcStep (fun b p => calcStep_isMine b p q) l b

theorem foldCalc_state (l : List Position) (b : Board) (q : Position) :
    ((l.foldl calcStep b).cells q).state = (b.cells q).state :=
  foldl_preserves (fun b => (b.cells q).state) calcStep (fun b p => calcStep_state b p q) l b

theorem foldCalc_rows (l : List Position) (b : Board) : (l.foldl calcStep b).rows = b.rows :=
  foldl_preserves (fun b => b.rows) calcStep calcStep_rows l b

theorem foldCalc_cols (l : List Position) (b : Board) : (l.foldl calcStep b).cols = b.cols :=
  foldl_preserves (fun b => b.cols) calcStep calcStep_cols l b

theorem calcStep_countAdj (b : Board) (p : Position) (row col : Nat) :
    countAdjacentMines (calcStep b p) row col = countAdjacentMines b row col :=
  countAdjacentMines_congr _ _ _ _ (calcStep_rows b p) (calcStep_cols b p)
    (fun q => calcStep_isMine b p q)

theorem foldCalc_cells (l : List Position) (hnd : l.Nodup) :
    ∀ (b : Board) (q : Position),
      (l.foldl calcStep b).cells q =
        if q ∈ l ∧ (b.cells q).isMine = false
        then { b.cells q with adjacentMines := countAdjacentMines b q.row q.col }
        else b.cells q := by
  induction l with
  | nil => intro b q; simp
  | cons a t ih =>
      intro b q
      rw [List.foldl_cons]
      by_cases hq : q = a
      · subst hq
        have hnot : q ∉ t := (List.nodup_cons.mp hnd).1
        rw [ih (List.nodup_cons.mp hnd).2, if_neg (fun hcon => hnot hcon.1)]
        unfold calcStep
        split
        · rename_i hm
          rw [if_neg (fun hcon => by rw [hcon.2] at hm; cases hm)]
        · rename_i hm
          rw [setCell_cells, if_pos rfl,
            if_pos ⟨List.mem_cons_self _ _, Bool.not_eq_true _ ▸ hm⟩]
      · have hcells : (calcStep b a).cells q = b.cells q := calcStep_cells_ne b a q hq
        rw [ih (List.nodup_cons.mp hnd).2, hcells, calcStep_countAdj]
        by_cases hmem : q ∈ t
        · simp only [List.mem_cons, hmem, or_true, hq]
        · have h1 : ¬(q ∈ t ∧ (b.cells q).isMine = false) := fun hcon => hmem hcon.1
          have h2 : ¬(q ∈ a :: t ∧ (b.cells q).isMine = false) := by
            rintro ⟨hmem2, hm2⟩
            rcases List.mem_cons.mp hmem2 with h | h
            · exact hq h
            · exact hmem h
          rw [if_neg h1, if_neg h2]

theorem calculateAdjacentMines_cells (b : Board) (q : Position) :
    (calculateAdjacentMines b).cells q =
      if (q.row < b.rows ∧ q.col < b.cols) ∧ (b.cells q).isMine = false
      then { b.cells q with adjacentMines := countAdjacentMines b q.row q.col }
      else b.cells q := by
  unfold calculateAdjacentMines
  rw [foldCalc_cells _ (nodup_allPositions _ _)]
  simp only [mem_allPositions]

theorem calculateAdjacentMines_isMine (b : Board) (q : Position) :
    ((calculateAdjacentMines b).cells q).isMine = (b.cells q).isMine :=
  foldCalc_isMine _ b q

theorem calculateAdjacentMines_state (b : Board) (q : Position) :
    ((calculateAdjacentMines b).cells q).state = (b.cells q).state :=
  foldCalc_state _ b q

theorem calculateAdjacentMines_rows (b : Board) : (calculateAdjacentMines b).rows = b.rows :=
  foldCalc_rows _ b

theorem calculateAdjacentMines_cols (b : Board) : (calculateAdjacentMines b).cols = b.cols :=
  foldCalc_cols _ b

theorem mineStep_of_done (safe : Position) (st : Board × Nat) (d : Position)
    (h : ¬ st.2 < st.1.totalMines) : mineStep safe st d = st := by
  unfold mineStep
  rw [if_neg h]

theorem mineStep_of_skip (safe : Position) (st : Board × Nat) (d : Position)
    (h1 : st.2 < st.1.totalMines) (h2 : d = safe ∨ (st.1.cells d).isMine = true) :
    mineStep safe st d = st := by
  unfold mineStep
  rw [if_pos h1, if_pos h2]

theorem mineStep_of_place (safe : Position) (st : Board × Nat) (d : Position)
    (h1 : st.2 < st.1.totalMines) (h2 : ¬(d = safe ∨ (st.1.cells d).isMine = true)) :
    mineStep safe st d =
      (setCell st.1 d { st.1.cells d with isMine := true }, st.2 + 1) := by
  unfold mineStep
  rw [if_pos h1, if_neg h2]

theorem mineStep_frame (safe : Position) (st : Board × Nat) (d : Position) :
    (mineStep safe st d).1.rows = st.1.rows ∧ (mineStep safe st d).1.cols = st.1.cols ∧
    (mineStep safe st d).1.totalMines = st.1.totalMines ∧
    (mineStep safe st d).1.isFirstClick = st.1.isFirstClick ∧
    (∀ q, ((mineStep safe st d).1.cells q).state = (st.1.cells q).state) ∧
    (∀ q, ((mineStep safe st d).1.cells q).adjacentMines = (st.1.cells q).adjacentMines) ∧
    st.2 ≤ (mineStep safe st d).2 := by
  by_cases h1 : st.2 < st.1.totalMines
  · by_cases h2 : d = safe ∨ (st.1.cells d).isMine = true
    · rw [mineStep_of_skip safe st d h1 h2]
      exact ⟨rfl, rfl, rfl, rfl, fun _ => rfl, fun _ => rfl, Nat.le_refl _⟩
    · rw [mineStep_of_place safe st d h1 h2]
      refine ⟨rfl, rfl, rfl, rfl, ?_, ?_, Nat.le_succ _⟩ <;>
        · intro q
          rw [setCell_cells]
          split
          · rename_i hq; subst hq; rfl
          · rfl
  · rw [mineStep_of_done safe st d h1]
    exact ⟨rfl, rfl, rfl, rfl, fun _ => rfl, fun _ => rfl, Nat.le_refl _⟩

theorem mineRun_frame (b : Board) (safe : Position) (draws : Nat → Position) :
    ∀ k, (mineRun b safe draws k).1.rows = b.rows ∧
      (mineRun b safe draws k).1.cols = b.cols ∧
      (mineRun b safe draws k).1.totalMines = b.totalMines ∧
      (mineRun b safe draws k).1.isFirstClick = b.isFirstClick ∧
      (∀ q, ((mineRun b safe draws k).1.cells q).state = (b.cells q).state) ∧
      (∀ q, ((mineRun b safe draws k).1.cells q).adjacentMines = (b.cells q).adjacentMines) := by
  intro k
  induction k with
  | zero => exact ⟨rfl, rfl, rfl, rfl, fun _ => rfl, fun _ => rfl⟩
  | succ k ih =>
      obtain ⟨i1, i2, i3, i4, i5, i6⟩ := ih
      obtain ⟨s1, s2, s3, s4, s5, s6, _⟩ :=
        mineStep_frame safe (mineRun b safe draws k) (draws k)
      exact ⟨s1.trans i1, s2.trans i2, s3.trans i3, s4.trans i4,
        fun q => (s5 q).trans (i5 q), fun q => (s6 q).trans (i6 q)⟩

theorem mineRun_placed_le (b : Board) (safe : Position) (draws : Nat → Position) :
    ∀ k, (mineRun b safe draws k).2 ≤ b.totalMines := by
  intro k
  induction k with
  | zero => exact Nat.zero_le _
  | succ k ih =>
      show (mineStep safe (mineRun b safe draws k) (draws k)).2 ≤ b.totalMines
      by_cases h1 : (mineRun b safe draws k).2 < (mineRun b safe draws k).1.totalMines
      · by_cases h2 : draws k = safe ∨
            ((mineRun b safe draws k).1.cells (draws k)).isMine = true
        · rw [mineStep_of_skip _ _ _ h1 h2]; exact ih
        · rw [mineStep_of_place _ _ _ h1 h2]
          have := (mineRun_frame b safe draws k).2.2.1
          simp only at *
          omega
      · rw [mineStep_of_done _ _ _ h1]; exact ih

theorem mineRun_placed_mono (b : Board) (safe : Position) (draws : Nat → Position) :
    ∀ j k, j ≤ k → (mineRun b safe draws j).2 ≤ (mineRun b safe draws k).2 := by
  intro j k hjk
  induction k with
  | zero => cases Nat.le_zero.mp hjk; exact Nat.le_refl _
  | succ k ih =>
      rcases Nat.lt_or_ge j (k + 1) with h | h
      · have h1 := ih (Nat.lt_succ_iff.mp h)
        have h2 := (mineStep_frame safe (mineRun b safe draws k) (draws k)).2.2.2.2.2.2
        exact Nat.le_trans h1 h2
      · cases Nat.le_antisymm hjk h
        exact Nat.le_refl _

theorem countMines_congr (b1 b2 : Board) (hr : b1.rows = b2.rows) (hc : b1.cols = b2.cols)
    (hm : ∀ q, (b1.cells q).isMine = (b2.cells q).isMine) :
    countMines b1 = countMines b2 := by
  unfold countMines
  rw [hr, hc]
  exact List.countP_congr (fun q _ => by rw [hm q])

theorem countMines_setMine (b : Board) (d : Position)
    (hin : d.row < b.rows ∧ d.col < b.cols) (hd : (b.cells d).isMine = false) :
    countMines (setCell b d { b.cells d with isMine := true }) = countMines b + 1 := by
  have h : countMines (setCell b d { b.cells d with isMine := true }) +
      (if (b.cells d).isMine = true then 1 else 0) =
      countMines b +
      (if ((setCell b d { b.cells d with isMine := true }).cells d).isMine = true
       then 1 else 0) :=
    countP_set (allPositions b.rows b.cols) (nodup_allPositions _ _) d
      ((mem_allPositions _ _ d).mpr hin)
      (fun x => (b.cells x).isMine)
      (fun x => ((setCell b d { b.cells d with isMine := true }).cells x).isMine)
      (fun x hx => by simp only [setCell_cells]; rw [if_neg hx])
  have hgd : ((setCell b d { b.cells d with isMine := true }).cells d).isMine = true := by
    rw [setCell_cells, if_pos rfl]
  rw [hd, hgd] at h
  rw [if_neg Bool.false_ne_true, if_pos rfl] at h
  omega

theorem countMines_fresh (b : Board) (hfresh : ∀ q, (b.cells q).isMine = false) :
    countMines b = 0 :=
  List.countP_eq_zero.mpr (fun q _ => by rw [hfresh q]; intro h; cases h)

theorem mineRun_count (b : Board) (safe : Position) (draws : Nat → Position)
    (hfresh : ∀ q, (b.cells q).isMine = false)
    (hdraws : ∀ n, (draws n).row < b.rows ∧ (draws n).col < b.cols) :
    ∀ k, countMines (mineRun b safe draws k).1 = (mineRun b safe draws k).2 ∧
      ((mineRun b safe draws k).1.cells safe).isMine = false := by
  intro k
  induction k with
  | zero => exact ⟨countMines_fresh b hfresh, hfresh safe⟩
  | succ k ih =>
      obtain ⟨ih1, ih2⟩ := ih
      show countMines (mineStep safe (mineRun b safe draws k) (draws k)).1 =
          (mineStep safe (mineRun b safe draws k) (draws k)).2 ∧
          ((mineStep safe (mineRun b safe draws k) (draws k)).1.cells safe).isMine = false
      by_cases h1 : (mineRun b safe draws k).2 < (mineRun b safe draws k).1.totalMines
      · by_cases h2 : draws k = safe ∨
            ((mineRun b safe draws k).1.cells (draws k)).isMine = true
        · rw [mineStep_of_skip _ _ _ h1 h2]; exact ⟨ih1, ih2⟩
        · rw [mineStep_of_place _ _ _ h1 h2]
          push_neg at h2
          obtain ⟨hne, hnm⟩ := h2
          have hfr := mineRun_frame b safe draws k
          dsimp only
          constructor
          · have hd := hdraws k
            rw [countMines_setMine _ _ ⟨by rw [hfr.1]; exact hd.1, by rw [hfr.2.1]; exact hd.2⟩
              (Bool.not_eq_true _ ▸ hnm), ih1]
          · rw [setCell_cells, if_neg (fun hcon => hne (Eq.symm hcon))]
            exact ih2
      · rw [mineStep_of_done _ _ _ h1]; exact ⟨ih1, ih2⟩

theorem countMines_calculateAdjacentMines (b : Board) :
    countMines (calculateAdjacentMines b) = countMines b :=
  countMines_congr _ _ (calculateAdjacentMines_rows b) (calculateAdjacentMines_cols b)
    (fun q => calculateAdjacentMines_isMine b q)

theorem hiddenCount_le (b : Board) : hiddenCount b ≤ b.rows * b.cols := by
  have h1 : hiddenCount b ≤ (allPositions b.rows b.cols).length := List.countP_le_length _
  rw [length_allPositions] at h1
  exact h1

theorem hiddenCount_set_reveal (b : Board) (p : Position)
    (hin : p.row < b.rows ∧ p.col < b.cols) (hH : (b.cells p).state = CellState.Hidden)
    (v : Cell) (hv : v.state ≠ CellState.Hidden) :
    hiddenCount (setCell b p v) + 1 = hiddenCount b := by
  have h : hiddenCount (setCell b p v) +
      (if decide ((b.cells p).state = CellState.Hidden) = true then 1 else 0) =
      hiddenCount b +
      (if decide (((setCell b p v).cells p).state = CellState.Hidden) = true
       then 1 else 0) :=
    countP_set (allPositions b.rows b.cols) (nodup_allPositions _ _) p
      ((mem_allPositions _ _ p).mpr hin)
      (fun x => decide ((b.cells x).state = CellState.Hidden))
      (fun x => decide (((setCell b p v).cells x).state = CellState.Hidden))
      (fun x hx => by simp [setCell_cells, hx])
  have hf : decide ((b.cells p).state = CellState.Hidden) = true := by
    rw [hH]; rfl
  have hg : decide (((setCell b p v).cells p).state = CellState.Hidden) = false := by
    rw [setCell_cells, if_pos rfl]
    exact decide_eq_false hv
  rw [hf, hg] at h
  simp only [if_true, if_false, Bool.false_eq_true] at h
  exact h

theorem Cell.toggleFlag_toggleFlag (c : Cell) : ((c.toggleFlag).1.toggleFlag).1 = c := by
  rcases c with ⟨m, a, s⟩
  cases s <;> rfl

theorem Cell.toggleFlag_revealed (c : Cell) (h : c.state = CellState.Revealed) :
    (c.toggleFlag).1 = c := by
  unfold Cell.toggleFlag
  rw [if_pos h]

theorem Cell.toggleFlag_flagged_iff (c : Cell) :
    (c.toggleFlag).2 = CellState.Flagged ↔ (c.toggleFlag).1.state = CellState.Flagged := by
  rcases c with ⟨m, a, s⟩
  cases s <;> simp [Cell.toggleFlag]

theorem Cell.toggleFlag_isMine (c : Cell) : (c.toggleFlag).1.isMine = c.isMine := by
  rcases c with ⟨m, a, s⟩
  cases s <;> rfl

theorem Cell.toggleFlag_adjacentMines (c : Cell) :
    (c.toggleFlag).1.adjacentMines = c.adjacentMines := by
  rcases c with ⟨m, a, s⟩
  cases s <;> rfl

theorem Board.toggleFlag_fst_cells (b : Board) (p q : Position) :
    (b.toggleFlag p).1.cells q =
      if q = p then ((b.cells p).toggleFlag).1 else b.cells q := rfl

theorem Board.toggleFlag_snd (b : Board) (p : Position) :
    (b.toggleFlag p).2 = decide (((b.cells p).toggleFlag).2 = CellState.Flagged) := rfl

/-- C1 counterexample: on a 1 x 1 board holding a Flagged mine,
revealAllMines leaves the cell Flagged, not Revealed, because Cell.reveal
refuses Flagged cells. -/
theorem C1_counterexample_flagged_mine :
    (bC1x.cells ⟨0, 0⟩).isMine = true ∧
    (bC1x.cells ⟨0, 0⟩).state = CellState.Flagged ∧
    ((revealAllMines bC1x).cells ⟨0, 0⟩).state = CellState.Flagged ∧
    ¬ ((revealAllMines bC1x).cells ⟨0, 0⟩).state = CellState.Revealed := by
  decide

/-- C1 (amended): revealAllMines sets every in-range mine cell that is not
Flagged to Revealed; a Flagged mine cell keeps state Flagged (Cell.reveal
refuses Flagged cells, so revealAllMines cannot transition Flagged to
Revealed); cells without mines are untouched. -/
theorem C1_amended_revealAllMines (b : Board) (q : Position)
    (hq : inRange b q) (hm : (b.cells q).isMine = true) :
    (¬ (b.cells q).state = CellState.Flagged →
      ((revealAllMines b).cells q).state = CellState.Revealed) ∧
    ((b.cells q).state = CellState.Flagged →
      ((revealAllMines b).cells q).state = CellState.Flagged) ∧
    (∀ x, (x.cells q).isMine = false → (revealAllMines x).cells q = x.cells q) := by
  obtain ⟨h1, h2⟩ := hq
  refine ⟨?_, ?_, ?_⟩
  · intro hnf
    rw [revealAllMines_cells, if_pos ⟨⟨h1, h2⟩, hm⟩]
    unfold Cell.reveal
    rw [if_neg hnf]
  · intro hf
    rw [revealAllMines_cells, if_pos ⟨⟨h1, h2⟩, hm⟩, Cell.reveal_flagged _ hf, hf]
  · intro x hx
    rw [revealAllMines_cells, if_neg (fun hcon => by rw [hx] at hcon; cases hcon.2)]

/-- C1 witness: concrete 1 x 2 board; the Hidden mine at (0,0) is an input
satisfying the amended theorem's hypotheses. -/
theorem C1_amended_revealAllMines_witness :
    (inRange bW1 ⟨0, 0⟩ ∧ (bW1.cells ⟨0, 0⟩).isMine = true) ∧
    ((¬ (bW1.cells ⟨0, 0⟩).state = CellState.Flagged →
      ((revealAllMines bW1).cells ⟨0, 0⟩).state = CellState.Revealed) ∧
    ((bW1.cells ⟨0, 0⟩).state = CellState.Flagged →
      ((revealAllMines bW1).cells ⟨0, 0⟩).state = CellState.Flagged) ∧
    (∀ x, (x.cells ⟨0, 0⟩).isMine = false →
      (revealAllMines x).cells ⟨0, 0⟩ = x.cells ⟨0, 0⟩)) :=
  ⟨⟨by decide, by decide⟩,
    C1_amended_revealAllMines bW1 ⟨0, 0⟩ (by decide) (by decide)⟩

/-- C7 (confirmed): checkWinCondition is true iff every in-range non-mine
cell is Revealed, and it depends only on the mine layout together with the
non-mine cells (so the visibility of mine cells has no effect). -/
theorem C7_checkWinCondition (b : Board) :
    (checkWinCondition b = true ↔
      ∀ r, r < b.rows → ∀ c, c < b.cols →
        (b.cells ⟨r, c⟩).isMine = false → (b.cells ⟨r, c⟩).state = CellState.Revealed) ∧
    (∀ b2 : Board, b2.rows = b.rows → b2.cols = b.cols →
      (∀ q, (b2.cells q).isMine = (b.cells q).isMine) →
      (∀ q, (b.cells q).isMine = false → b2.cells q = b.cells q) →
      checkWinCondition b2 = checkWinCondition b) := by
  constructor
  · unfold checkWinCondition
    rw [List.all_eq_true]
    constructor
    · intro h r hr c hc hm
      have h2 := h ⟨r, c⟩ ((mem_allPositions _ _ _).mpr ⟨hr, hc⟩)
      rw [hm] at h2
      simp only [Bool.false_or, decide_eq_true_eq] at h2
      exact h2
    · intro h q hq
      obtain ⟨h1, h2⟩ := (mem_allPositions _ _ _).mp hq
      by_cases hmine : (b.cells q).isMine = true
      · rw [hmine]; rfl
      · have h3 := h q.row h1 q.col h2 (Bool.not_eq_true _ ▸ hmine)
        have hqq : (⟨q.row, q.col⟩ : Position) = q := by cases q; rfl
        rw [hqq] at h3
        rw [h3]
        simp
  · intro b2 hr hc hmine hcells
    unfold checkWinCondition
    rw [hr, hc]
    apply congrArg
    funext q
    by_cases hm : (b.cells q).isMine = true
    · rw [hmine q, hm]; simp
    · have hm2 : (b.cells q).isMine = false := Bool.not_eq_true _ ▸ hm
      rw [hcells q hm2]

/-- C7 witness: on the concrete board with the mine Hidden and all non-mine
cells Revealed, the win check is true via the theorem's iff. -/
theorem C7_checkWinCondition_witness : checkWinCondition bWin = true :=
  (C7_checkWinCondition bWin).1.mpr (by decide)

/-- C8 (confirmed): GameBoard.toggleFlag returns true iff the target cell's
resulting visibility is Flagged; on a Revealed cell nothing changes (and
false is returned); and toggling twice restores every cell exactly, for
every starting visibility. -/
theorem C8_toggleFlag (b : Board) (p : Position) (hin : inRange b p) :
    ((b.toggleFlag p).2 = true ↔
      ((b.toggleFlag p).1.cells p).state = CellState.Flagged) ∧
    ((b.cells p).state = CellState.Revealed →
      (∀ q, (b.toggleFlag p).1.cells q = b.cells q) ∧ (b.toggleFlag p).2 = false) ∧
    (∀ q, ((b.toggleFlag p).1.toggleFlag p).1.cells q = b.cells q) := by
  refine ⟨?_, ?_, ?_⟩
  · rw [Board.toggleFlag_snd, Board.toggleFlag_fst_cells, if_pos rfl]
    rw [decide_eq_true_eq]
    exact Cell.toggleFlag_flagged_iff _
  · intro hrev
    constructor
    · intro q
      rw [Board.toggleFlag_fst_cells]
      split
      · rename_i hq; subst hq; exact Cell.toggleFlag_revealed _ hrev
      · rfl
    · rw [Board.toggleFlag_snd, Cell.toggleFlag]
      rw [if_pos hrev, hrev]
      rfl
  · intro q
    rw [Board.toggleFlag_fst_cells]
    split
    · rename_i hq
      subst hq
      rw [Board.toggleFlag_fst_cells, if_pos rfl]
      exact Cell.toggleFlag_toggleFlag _
    · rename_i hq
      rw [Board.toggleFlag_fst_cells, if_neg hq]

/-- C8 witness: the Hidden cell (0,0) of the concrete 2 x 2 board. -/
theorem C8_toggleFlag_witness :
    inRange bHid ⟨0, 0⟩ ∧
    ((bHid.toggleFlag ⟨0, 0⟩).2 = true ↔
      ((bHid.toggleFlag ⟨0, 0⟩).1.cells ⟨0, 0⟩).state = CellState.Flagged) ∧
    (((bHid.cells ⟨0, 0⟩).state = CellState.Revealed →
      (∀ q, (bHid.toggleFlag ⟨0, 0⟩).1.cells q = bHid.cells q) ∧
      (bHid.toggleFlag ⟨0, 0⟩).2 = false) ∧
    (∀ q, ((bHid.toggleFlag ⟨0, 0⟩).1.toggleFlag ⟨0, 0⟩).1.cells q = bHid.cells q)) :=
  ⟨by decide, (C8_toggleFlag bHid ⟨0, 0⟩ (by decide)).1,
    (C8_toggleFlag bHid ⟨0, 0⟩ (by decide)).2⟩

/-- C10 (confirmed): GameBoard.toggleFlag never triggers mine placement and
changes at most the target cell's visibility: dimensions, mine count, the
first-click flag, every other cell, and the target's isMine and
adjacentMines fields are all unchanged. -/
theorem C10_toggleFlag_frame (b : Board) (p : Position) (hin : inRange b p) :
    (b.toggleFlag p).1.rows = b.rows ∧
    (b.toggleFlag p).1.cols = b.cols ∧
    (b.toggleFlag p).1.totalMines = b.totalMines ∧
    (b.toggleFlag p).1.isFirstClick = b.isFirstClick ∧
    (∀ q, q ≠ p → (b.toggleFlag p).1.cells q = b.cells q) ∧
    ((b.toggleFlag p).1.cells p).isMine = (b.cells p).isMine ∧
    ((b.toggleFlag p).1.cells p).adjacentMines = (b.cells p).adjacentMines := by
  refine ⟨rfl, rfl, rfl, rfl, ?_, ?_, ?_⟩
  · intro q hq
    rw [Board.toggleFlag_fst_cells, if_neg hq]
  · rw [Board.toggleFlag_fst_cells, if_pos rfl]
    exact Cell.toggleFlag_isMine _
  · rw [Board.toggleFlag_fst_cells, if_pos rfl]
    exact Cell.toggleFlag_adjacentMines _

/-- C10 witness: the Hidden cell (0,0) of the concrete 2 x 2 board. -/
theorem C10_toggleFlag_frame_witness :
    inRange bHid ⟨0, 0⟩ ∧
    (bHid.toggleFlag ⟨0, 0⟩).1.isFirstClick = bHid.isFirstClick ∧
    (∀ q, q ≠ ⟨0, 0⟩ → (bHid.toggleFlag ⟨0, 0⟩).1.cells q = bHid.cells q) ∧
    ((bHid.toggleFlag ⟨0, 0⟩).1.cells ⟨0, 0⟩).isMine = (bHid.cells ⟨0, 0⟩).isMine :=
  ⟨by decide, (C10_toggleFlag_frame bHid ⟨0, 0⟩ (by decide)).2.2.2.1,
    (C10_toggleFlag_frame bHid ⟨0, 0⟩ (by decide)).2.2.2.2.1,
    (C10_toggleFlag_frame bHid ⟨0, 0⟩ (by decide)).2.2.2.2.2.1⟩

/-- C3 (confirmed): on a fresh board, whenever the placeMines loop has
finished (the placed counter has reached totalMines within k draws), the
board holds exactly totalMines mines (and zero before placement), and the
safe cell never holds a mine. -/
theorem C3_placeMines_count_safety (b : Board) (safe : Position)
    (draws : Nat → Position) (k : Nat)
    (hfresh : ∀ q, (b.cells q).isMine = false)
    (hmines : b.totalMines < b.rows * b.cols)
    (hsafe : inRange b safe)
    (hdraws : ∀ n, inRange b (draws n))
    (hterm : (mineRun b safe draws k).2 = b.totalMines) :
    countMines b = 0 ∧
    countMines (placeMinesAt b safe draws k) = b.totalMines ∧
    ((placeMinesAt b safe draws k).cells safe).isMine = false := by
  have hdraws2 : ∀ n, (draws n).row < b.rows ∧ (draws n).col < b.cols := fun n => hdraws n
  obtain ⟨hc, hs⟩ := mineRun_count b safe draws hfresh hdraws2 k
  refine ⟨countMines_fresh b hfresh, ?_, ?_⟩
  · unfold placeMinesAt
    rw [countMines_calculateAdjacentMines, hc, hterm]
  · unfold placeMinesAt
    rw [calculateAdjacentMines_isMine]
    exact hs

/-- C3 witness: a fresh 2 x 2 board with one mine; the constant draw stream
at (1,1) finishes placement after one draw, safe cell (0,0). -/
theorem C3_placeMines_count_safety_witness :
    countMines (newBoard 2 2 1) = 0 ∧
    countMines (placeMinesAt (newBoard 2 2 1) ⟨0, 0⟩ drawsW 1) = (newBoard 2 2 1).totalMines ∧
    ((placeMinesAt (newBoard 2 2 1) ⟨0, 0⟩ drawsW 1).cells ⟨0, 0⟩).isMine = false :=
  C3_placeMines_count_safety (newBoard 2 2 1) ⟨0, 0⟩ drawsW 1
    (fun _ => rfl) (by decide) (by decide)
    (fun _ => (by decide : inRange (newBoard 2 2 1) ⟨1, 1⟩)) (by decide)

/-- C4 (confirmed): after placeMines completes from a board with all
adjacency counts 0, every in-range non-mine cell stores exactly the number
of mine-bearing cells among its up-to-8 edge-clamped grid neighbors (stated
against the independent spec-words count), and every mine cell's adjacency
count is left at 0. -/
theorem C4_adjacency_after_placeMines (b : Board) (safe : Position)
    (draws : Nat → Position) (k : Nat)
    (hadj0 : ∀ q, (b.cells q).adjacentMines = 0)
    (hterm : (mineRun b safe draws k).2 = b.totalMines) :
    (∀ r, r < (placeMinesAt b safe draws k).rows →
      ∀ c, c < (placeMinesAt b safe draws k).cols →
      ((placeMinesAt b safe draws k).cells ⟨r, c⟩).isMine = false →
      ((placeMinesAt b safe draws k).cells ⟨r, c⟩).adjacentMines =
        specNeighborMineCount (placeMinesAt b safe draws k) ⟨r, c⟩) ∧
    (∀ q, ((placeMinesAt b safe draws k).cells q).isMine = true →
      ((placeMinesAt b safe draws k).cells q).adjacentMines = 0) := by
  unfold placeMinesAt
  constructor
  · intro r hr c hc hm
    rw [calculateAdjacentMines_rows] at hr
    rw [calculateAdjacentMines_cols] at hc
    rw [calculateAdjacentMines_isMine] at hm
    rw [calculateAdjacentMines_cells, if_pos ⟨⟨hr, hc⟩, hm⟩]
    have hcongr : countAdjacentMines (mineRun b safe draws k).1 r c =
        countAdjacentMines (calculateAdjacentMines (mineRun b safe draws k).1) r c :=
      countAdjacentMines_congr _ _ _ _
        (calculateAdjacentMines_rows _).symm (calculateAdjacentMines_cols _).symm
        (fun q => (calculateAdjacentMines_isMine _ q).symm)
    dsimp only
    rw [hcongr]
    apply countAdjacentMines_eq_spec
    · rw [calculateAdjacentMines_rows]; exact hr
    · rw [calculateAdjacentMines_cols]; exact hc
  · intro q hm
    rw [calculateAdjacentMines_isMine] at hm
    rw [calculateAdjacentMines_cells,
      if_neg (fun hcon => by rw [hm] at hcon; cases hcon.2)]
    rw [(mineRun_frame b safe draws k).2.2.2.2.2 q]
    exact hadj0 q

/-- C4 witness: the same concrete placement run as the C3 witness. -/
theorem C4_adjacency_after_placeMines_witness :
    (∀ r, r < (placeMinesAt (newBoard 2 2 1) ⟨0, 0⟩ drawsW 1).rows →
      ∀ c, c < (placeMinesAt (newBoard 2 2 1) ⟨0, 0⟩ drawsW 1).cols →
      ((placeMinesAt (newBoard 2 2 1) ⟨0, 0⟩ drawsW 1).cells ⟨r, c⟩).isMine = false →
      ((placeMinesAt (newBoard 2 2 1) ⟨0, 0⟩ drawsW 1).cells ⟨r, c⟩).adjacentMines =
        specNeighborMineCount (placeMinesAt (newBoard 2 2 1) ⟨0, 0⟩ drawsW 1) ⟨r, c⟩) ∧
    (∀ q, ((placeMinesAt (newBoard 2 2 1) ⟨0, 0⟩ drawsW 1).cells q).isMine = true →
      ((placeMinesAt (newBoard 2 2 1) ⟨0, 0⟩ drawsW 1).cells q).adjacentMines = 0) :=
  C4_adjacency_after_placeMines (newBoard 2 2 1) ⟨0, 0⟩ drawsW 1
    (fun _ => rfl) (by decide)

/-- C9 (confirmed): with the safe position in range and in-range draws, if
totalMines is at least rows*cols the placement loop can never finish (the
placed counter never reaches totalMines, at any number of draws), while for
totalMines < rows*cols it finishes for every draw stream that keeps
producing fresh eligible cells (draws that are neither the safe cell nor an
already-mined cell). -/
theorem C9_placeMines_termination (b : Board) (safe : Position)
    (draws : Nat → Position)
    (hfresh : ∀ q, (b.cells q).isMine = false)
    (hsafe : inRange b safe)
    (hdraws : ∀ n, inRange b (draws n)) :
    (b.rows * b.cols ≤ b.totalMines →
      ∀ k, (mineRun b safe draws k).2 ≠ b.totalMines) ∧
    (b.totalMines < b.rows * b.cols →
      (∀ k, ∃ j, k ≤ j ∧ draws j ≠ safe ∧
        ((mineRun b safe draws j).1.cells (draws j)).isMine = false) →
      ∃ k, (mineRun b safe draws k).2 = b.totalMines) := by
  have hdraws2 : ∀ n, (draws n).row < b.rows ∧ (draws n).col < b.cols := fun n => hdraws n
  constructor
  · intro hbig k hcon
    obtain ⟨hc, hs⟩ := mineRun_count b safe draws hfresh hdraws2 k
    have hfr := mineRun_frame b safe draws k
    have hlt : countMines (mineRun b safe draws k).1 < b.rows * b.cols := by
      unfold countMines
      rw [hfr.1, hfr.2.1]
      have h2 := countP_lt_of_mem_false (allPositions b.rows b.cols) safe
        ((mem_allPositions _ _ _).mpr hsafe)
        (fun x => ((mineRun b safe draws k).1.cells x).isMine) hs
      rw [length_allPositions] at h2
      exact h2
    omega
  · intro hlt hfair
    by_contra hno
    push_neg at hno
    have hlt2 : ∀ k, (mineRun b safe draws k).2 < b.totalMines := fun k =>
      Nat.lt_of_le_of_ne (mineRun_placed_le b safe draws k) (hno k)
    have hstep : ∀ j, draws j ≠ safe →
        ((mineRun b safe draws j).1.cells (draws j)).isMine = false →
        (mineRun b safe draws (j + 1)).2 = (mineRun b safe draws j).2 + 1 := by
      intro j h1 h2
      show (mineStep safe (mineRun b safe draws j) (draws j)).2 = _
      rw [mineStep_of_place]
      · exact (mineRun_frame b safe draws j).2.2.1.symm ▸ hlt2 j
      · rintro (h | h)
        · exact h1 h
        · rw [h2] at h; cases h
    have hgrow : ∀ m, ∃ k, m ≤ (mineRun b safe draws k).2 := by
      intro m
      induction m with
      | zero => exact ⟨0, Nat.zero_le _⟩
      | succ m ih =>
          obtain ⟨k, hk⟩ := ih
          obtain ⟨j, hkj, he1, he2⟩ := hfair k
          have hmono := mineRun_placed_mono b safe draws k j hkj
          have hinc := hstep j he1 he2
          exact ⟨j + 1, by omega⟩
    obtain ⟨k, hk⟩ := hgrow b.totalMines
    exact absurd hk (Nat.not_le.mpr (hlt2 k))

/-- C9 witness: on a fresh 1 x 1 board with one mine and safe cell (0,0),
the loop has not finished after 5 draws (and provably never will). -/
theorem C9_placeMines_termination_witness :
    ((newBoard 1 1 1).rows * (newBoard 1 1 1).cols ≤ (newBoard 1 1 1).totalMines) ∧
    (mineRun (newBoard 1 1 1) ⟨0, 0⟩ drawsW0 5).2 ≠ (newBoard 1 1 1).totalMines :=
  ⟨by decide,
    (C9_placeMines_termination (newBoard 1 1 1) ⟨0, 0⟩ drawsW0
      (fun _ => rfl) (by decide)
      (fun _ => (by decide : inRange (newBoard 1 1 1) ⟨0, 0⟩))).1 (by decide) 5⟩

theorem calcStep_totalMines (b : Board) (p : Position) :
    (calcStep b p).totalMines = b.totalMines := by
  unfold calcStep; split <;> rfl

theorem calcStep_isFirstClick (b : Board) (p : Position) :
    (calcStep b p).isFirstClick = b.isFirstClick := by
  unfold calcStep; split <;> rfl

theorem calculateAdjacentMines_totalMines (b : Board) :
    (calculateAdjacentMines b).totalMines = b.totalMines :=
  foldl_preserves (fun b => b.totalMines) calcStep calcStep_totalMines _ b

theorem calculateAdjacentMines_isFirstClick (b : Board) :
    (calculateAdjacentMines b).isFirstClick = b.isFirstClick :=
  foldl_preserves (fun b => b.isFirstClick) calcStep calcStep_isFirstClick _ b

theorem revealCell_not_first (pf : Nat) (draws : Nat → Position) (b : Board) (p : Position)
    (hf : b.isFirstClick = false) :
    revealCell pf draws b p = some (revealCellFrom b p) := by
  unfold revealCell
  rw [if_neg (by rw [hf]; intro h; cases h)]

theorem revealCell_first (pf : Nat) (draws : Nat → Position) (b : Board) (p : Position)
    (hf : b.isFirstClick = true) :
    revealCell pf draws b p =
      if (mineRun { b with isFirstClick := false } p draws pf).2 = b.totalMines
      then some (revealCellFrom
        (calculateAdjacentMines (mineRun { b with isFirstClick := false } p draws pf).1) p)
      else none := by
  unfold revealCell
  rw [if_pos hf]

theorem revealCellFrom_not_hidden (b : Board) (p : Position)
    (h : (b.cells p).state ≠ CellState.Hidden) :
    revealCellFrom b p = (b, ⟨false, false, []⟩) := by
  unfold revealCellFrom
  rw [if_pos h]

theorem revealCellFrom_mine (b : Board) (p : Position)
    (h : (b.cells p).state = CellState.Hidden) (hm : (b.cells p).isMine = true) :
    revealCellFrom b p =
      (setCell b p { b.cells p with state := CellState.Revealed }, ⟨true, true, [p]⟩) := by
  unfold revealCellFrom
  rw [if_neg (fun hcon => hcon h), if_pos hm, Cell.reveal_state_hidden _ h]

theorem revealCellFrom_flood (b : Board) (p : Position)
    (h : (b.cells p).state = CellState.Hidden) (hm : (b.cells p).isMine = false) :
    revealCellFrom b p =
      ((revealRec (b.rows * b.cols + 1) b p.row p.col).1,
       ⟨true, false, (revealRec (b.rows * b.cols + 1) b p.row p.col).2⟩) := by
  unfold revealCellFrom
  rw [if_neg (fun hcon => hcon h), if_neg (by rw [hm]; intro hc; cases hc)]

/-- C5 (confirmed): revealCell on an in-range, already Revealed or Flagged
target returns success false, hitMine false, no revealed cells, and changes
no cell's visibility; and when the call is the very first one, the one-time
mine placement still runs before the state check, so it happens regardless
of the target's state. -/
theorem C5_revealCell_reject (pf : Nat) (draws : Nat → Position) (b : Board) (p : Position)
    (hin : inRange b p) (hns : (b.cells p).state ≠ CellState.Hidden) :
    (b.isFirstClick = false →
      revealCell pf draws b p = some (b, ⟨false, false, []⟩)) ∧
    (b.isFirstClick = true →
      ∀ b2 res, revealCell pf draws b p = some (b2, res) →
        res = ⟨false, false, []⟩ ∧
        (∀ q, (b2.cells q).state = (b.cells q).state) ∧
        b2.isFirstClick = false ∧
        b2 = calculateAdjacentMines
          (mineRun { b with isFirstClick := false } p draws pf).1) := by
  constructor
  · intro hf
    rw [revealCell_not_first pf draws b p hf, revealCellFrom_not_hidden b p hns]
  · intro hf b2 res heq
    rw [revealCell_first pf draws b p hf] at heq
    split at heq
    · rename_i hterm
      have hstate : ∀ q,
          ((calculateAdjacentMines
            (mineRun { b with isFirstClick := false } p draws pf).1).cells q).state =
          (b.cells q).state := by
        intro q
        rw [calculateAdjacentMines_state]
        exact (mineRun_frame { b with isFirstClick := false } p draws pf).2.2.2.2.1 q
      rw [revealCellFrom_not_hidden _ _ (by rw [hstate p]; exact hns)] at heq
      obtain ⟨h1, h2⟩ := Prod.mk.injEq .. ▸ Option.some.inj heq
      refine ⟨h2.symm, ?_, ?_, h1.symm⟩
      · intro q
        rw [← h1]
        exact hstate q
      · rw [← h1, calculateAdjacentMines_isFirstClick]
        exact (mineRun_frame { b with isFirstClick := false } p draws pf).2.2.2.1
    · cases heq

/-- C5 witness: a 1 x 1 board whose only cell is Flagged and whose first
click is still pending, with zero mines so placement finishes immediately:
the first call still runs placement and rejects the reveal. -/
theorem C5_revealCell_reject_witness :
    ((calculateAdjacentMines
      (mineRun { bFlag with isFirstClick := false } ⟨0, 0⟩ drawsW0 0).1).cells ⟨0, 0⟩).state =
      (bFlag.cells ⟨0, 0⟩).state ∧
    (calculateAdjacentMines
      (mineRun { bFlag with isFirstClick := false } ⟨0, 0⟩ drawsW0 0).1).isFirstClick = false := by
  have happ := (C5_revealCell_reject 0 drawsW0 bFlag ⟨0, 0⟩ (by decide) (by decide)).2
    (by decide)
    (calculateAdjacentMines (mineRun { bFlag with isFirstClick := false } ⟨0, 0⟩ drawsW0 0).1)
    ⟨false, false, []⟩ rfl
  exact ⟨happ.2.1 ⟨0, 0⟩, happ.2.2.1⟩

/-- C6 (confirmed): after placement, revealCell on an in-range Hidden mine
cell reveals exactly that cell, returns success true, hitMine true and the
singleton revealed list, and changes nothing else. -/
theorem C6_revealCell_mine (pf : Nat) (draws : Nat → Position) (b : Board) (p : Position)
    (hf : b.isFirstClick = false) (hin : inRange b p)
    (hH : (b.cells p).state = CellState.Hidden) (hm : (b.cells p).isMine = true) :
    revealCell pf draws b p =
      some (setCell b p { b.cells p with state := CellState.Revealed },
        ⟨true, true, [p]⟩) ∧
    ((setCell b p { b.cells p with state := CellState.Revealed }).cells p).state =
      CellState.Revealed ∧
    (∀ q, q ≠ p →
      (setCell b p { b.cells p with state := CellState.Revealed }).cells q = b.cells q) := by
  refine ⟨?_, ?_, ?_⟩
  · rw [revealCell_not_first pf draws b p hf, revealCellFrom_mine b p hH hm]
  · rw [setCell_cells, if_pos rfl]
  · intro q hq
    rw [setCell_cells, if_neg hq]

/-- C6 witness: the Hidden mine at (1,1) of the concrete 2 x 2 board. -/
theorem C6_revealCell_mine_witness :
    revealCell 0 drawsW0 bHid ⟨1, 1⟩ =
      some (setCell bHid ⟨1, 1⟩ { bHid.cells ⟨1, 1⟩ with state := CellState.Revealed },
        ⟨true, true, [⟨1, 1⟩]⟩) ∧
    ((setCell bHid ⟨1, 1⟩
        { bHid.cells ⟨1, 1⟩ with state := CellState.Revealed }).cells ⟨1, 1⟩).state =
      CellState.Revealed ∧
    (∀ q, q ≠ ⟨1, 1⟩ →
      (setCell bHid ⟨1, 1⟩
        { bHid.cells ⟨1, 1⟩ with state := CellState.Revealed }).cells q = bHid.cells q) :=
  C6_revealCell_mine 0 drawsW0 bHid ⟨1, 1⟩ (by decide) (by decide) (by decide) (by decide)

theorem revealRec_zero (b : Board) (row col : Nat) : revealRec 0 b row col = (b, []) := rfl

theorem revealRec_succ_stop (fuel : Nat) (b : Board) (row col : Nat)
    (h : (b.cells ⟨row, col⟩).state ≠ CellState.Hidden) :
    revealRec (fuel + 1) b row col = (b, []) := by
  simp only [revealRec]
  rw [if_pos h]

theorem revealRec_succ_flood (fuel : Nat) (b : Board) (row col : Nat)
    (h : (b.cells ⟨row, col⟩).state = CellState.Hidden)
    (h0 : (b.cells ⟨row, col⟩).adjacentMines = 0) :
    revealRec (fuel + 1) b row col =
      (nbhd b.rows b.cols row col).foldl (revealStep fuel)
        (setCell b ⟨row, col⟩ { b.cells ⟨row, col⟩ with state := CellState.Revealed },
         [⟨row, col⟩]) := by
  simp only [revealRec]
  rw [if_neg (fun hc => hc h), Cell.reveal_state_hidden _ h, if_pos h0]
  rfl

theorem revealRec_succ_stopAdj (fuel : Nat) (b : Board) (row col : Nat)
    (h : (b.cells ⟨row, col⟩).state = CellState.Hidden)
    (h0 : (b.cells ⟨row, col⟩).adjacentMines ≠ 0) :
    revealRec (fuel + 1) b row col =
      (setCell b ⟨row, col⟩ { b.cells ⟨row, col⟩ with state := CellState.Revealed },
       [⟨row, col⟩]) := by
  simp only [revealRec]
  rw [if_neg (fun hc => hc h), Cell.reveal_state_hidden _ h, if_neg h0]

theorem onlyReveals_refl (b : Board) : OnlyReveals b b :=
  ⟨rfl, rfl, rfl, rfl, fun _ => Or.inl rfl⟩

theorem onlyReveals_trans {b1 b2 b3 : Board} (h12 : OnlyReveals b1 b2)
    (h23 : OnlyReveals b2 b3) : OnlyReveals b1 b3 := by
  obtain ⟨r1, c1, t1, f1, h1⟩ := h12
  obtain ⟨r2, c2, t2, f2, h2⟩ := h23
  refine ⟨r2.trans r1, c2.trans c1, t2.trans t1, f2.trans f1, ?_⟩
  intro q
  rcases h2 q with he | ⟨hh, he⟩
  · rw [he]; exact h1 q
  · rcases h1 q with he1 | ⟨hh1, he1⟩
    · right
      refine ⟨?_, ?_⟩
      · rw [← he1]; exact hh
      · rw [he, he1]
    · right
      refine ⟨hh1, ?_⟩
      rw [he, he1]

theorem onlyReveals_setReveal (b : Board) (p : Position)
    (h : (b.cells p).state = CellState.Hidden) :
    OnlyReveals b (setCell b p { b.cells p with state := CellState.Revealed }) := by
  refine ⟨rfl, rfl, rfl, rfl, ?_⟩
  intro q
  rw [setCell_cells]
  split
  · rename_i hq
    subst hq
    exact Or.inr ⟨h, rfl⟩
  · exact Or.inl rfl

theorem OnlyReveals.isMine_eq {b b2 : Board} (h : OnlyReveals b b2) (q : Position) :
    (b2.cells q).isMine = (b.cells q).isMine := by
  rcases h.2.2.2.2 q with he | ⟨_, he⟩ <;> rw [he]

theorem OnlyReveals.adj_eq {b b2 : Board} (h : OnlyReveals b b2) (q : Position) :
    (b2.cells q).adjacentMines = (b.cells q).adjacentMines := by
  rcases h.2.2.2.2 q with he | ⟨_, he⟩ <;> rw [he]

theorem OnlyReveals.nonHidden_frame {b b2 : Board} (h : OnlyReveals b b2) (q : Position)
    (hq : (b.cells q).state ≠ CellState.Hidden) : b2.cells q = b.cells q := by
  rcases h.2.2.2.2 q with he | ⟨hh, _⟩
  · exact he
  · exact absurd hh hq

theorem OnlyReveals.hidden_source {b b2 : Board} (h : OnlyReveals b b2) (q : Position)
    (hq : (b2.cells q).state = CellState.Hidden) :
    b2.cells q = b.cells q ∧ (b.cells q).state = CellState.Hidden := by
  rcases h.2.2.2.2 q with he | ⟨_, he⟩
  · exact ⟨he, he ▸ hq⟩
  · rw [he] at hq; cases hq

theorem OnlyReveals.revealed_mono {b b2 : Board} (h : OnlyReveals b b2) (q : Position)
    (hq : (b.cells q).state = CellState.Revealed) :
    (b2.cells q).state = CellState.Revealed := by
  rcases h.2.2.2.2 q with he | ⟨hh, _⟩
  · rw [he]; exact hq
  · rw [hh] at hq; cases hq

theorem OnlyReveals.nonHidden_mono {b b2 : Board} (h : OnlyReveals b b2) (q : Position)
    (hq : (b.cells q).state ≠ CellState.Hidden) :
    (b2.cells q).state ≠ CellState.Hidden := by
  rw [h.nonHidden_frame q hq]
  exact hq

theorem OnlyReveals.hiddenCount_mono {b b2 : Board} (h : OnlyReveals b b2) :
    hiddenCount b2 ≤ hiddenCount b := by
  unfold hiddenCount
  rw [h.1, h.2.1]
  apply List.countP_mono_left
  intro x _ hx
  rw [decide_eq_true_eq] at hx ⊢
  exact (h.hidden_source x hx).2

theorem revealFold_spec (fuel : Nat)
    (hIH : ∀ (x : Board) (row col : Nat),
      OnlyReveals x (revealRec fuel x row col).1 ∧
      (∀ q, q ∈ (revealRec fuel x row col).2 ↔
        ((x.cells q).state = CellState.Hidden ∧
         ((revealRec fuel x row col).1.cells q).state = CellState.Revealed)))
    (b : Board) :
    ∀ (l : List Position) (st : Board × List Position),
      OnlyReveals b st.1 →
      (∀ q, q ∈ st.2 ↔
        ((b.cells q).state = CellState.Hidden ∧
         (st.1.cells q).state = CellState.Revealed)) →
      OnlyReveals b (l.foldl (revealStep fuel) st).1 ∧
      (∀ q, q ∈ (l.foldl (revealStep fuel) st).2 ↔
        ((b.cells q).state = CellState.Hidden ∧
         ((l.foldl (revealStep fuel) st).1.cells q).state = CellState.Revealed)) := by
  intro l
  induction l with
  | nil => intro st h1 h2; exact ⟨h1, h2⟩
  | cons m t ihl =>
      intro st h1 h2
      rw [List.foldl_cons]
      apply ihl
      · exact onlyReveals_trans h1 (hIH st.1 m.row m.col).1
      · intro q
        obtain ⟨ha, hb⟩ := hIH st.1 m.row m.col
        constructor
        · intro hq
          have hq2 : q ∈ st.2 ++ (revealRec fuel st.1 m.row m.col).2 := hq
          rcases List.mem_append.mp hq2 with hmem | hmem
          · obtain ⟨hh, hrev⟩ := (h2 q).mp hmem
            exact ⟨hh, ha.revealed_mono q hrev⟩
          · obtain ⟨hh, hrev⟩ := (hb q).mp hmem
            exact ⟨(h1.hidden_source q hh).2, hrev⟩
        · rintro ⟨hh, hrev⟩
          by_cases hst : (st.1.cells q).state = CellState.Revealed
          · exact List.mem_append.mpr (Or.inl ((h2 q).mpr ⟨hh, hst⟩))
          · have hsthid : (st.1.cells q).state = CellState.Hidden := by
              rcases h1.2.2.2.2 q with he | ⟨_, he⟩
              · rw [he]; exact hh
              · exfalso; apply hst; rw [he]
            exact List.mem_append.mpr (Or.inr ((hb q).mpr ⟨hsthid, hrev⟩))

theorem revealRec_spec : ∀ (fuel : Nat) (b : Board) (row col : Nat),
    OnlyReveals b (revealRec fuel b row col).1 ∧
    (∀ q, q ∈ (revealRec fuel b row col).2 ↔
      ((b.cells q).state = CellState.Hidden ∧
       ((revealRec fuel b row col).1.cells q).state = CellState.Revealed)) := by
  intro fuel
  induction fuel with
  | zero =>
      intro b row col
      rw [revealRec_zero]
      refine ⟨onlyReveals_refl b, ?_⟩
      intro q
      constructor
      · intro h; cases h
      · rintro ⟨h1, h2⟩
        rw [h1] at h2
        cases h2
  | succ fuel IH =>
      intro b row col
      by_cases hH : (b.cells ⟨row, col⟩).state = CellState.Hidden
      · by_cases h0 : (b.cells ⟨row, col⟩).adjacentMines = 0
        · rw [revealRec_succ_flood fuel b row col hH h0]
          apply revealFold_spec fuel IH b
          · exact onlyReveals_setReveal b ⟨row, col⟩ hH
          · intro q
            constructor
            · intro hq
              have hq2 : q = ⟨row, col⟩ := List.mem_singleton.mp hq
              subst hq2
              refine ⟨hH, ?_⟩
              rw [setCell_cells, if_pos rfl]
            · rintro ⟨hh, hrev⟩
              rw [setCell_cells] at hrev
              by_cases hq : q = ⟨row, col⟩
              · subst hq; exact List.mem_singleton.mpr rfl
              · rw [if_neg hq] at hrev
                rw [hh] at hrev
                cases hrev
        · rw [revealRec_succ_stopAdj fuel b row col hH h0]
          refine ⟨onlyReveals_setReveal b ⟨row, col⟩ hH, ?_⟩
          intro q
          constructor
          · intro hq
            have hq2 : q = ⟨row, col⟩ := List.mem_singleton.mp hq
            subst hq2
            refine ⟨hH, ?_⟩
            rw [setCell_cells, if_pos rfl]
          · rintro ⟨hh, hrev⟩
            rw [setCell_cells] at hrev
            by_cases hq : q = ⟨row, col⟩
            · subst hq; exact List.mem_singleton.mpr rfl
            · rw [if_neg hq] at hrev
              rw [hh] at hrev
              cases hrev
      · rw [revealRec_succ_stop fuel b row col hH]
        refine ⟨onlyReveals_refl b, ?_⟩
        intro q
        constructor
        · intro h; cases h
        · rintro ⟨h1, h2⟩
          rw [h1] at h2
          cases h2

theorem revealRec_onlyReveals (fuel : Nat) (b : Board) (row col : Nat) :
    OnlyReveals b (revealRec fuel b row col).1 :=
  (revealRec_spec fuel b row col).1

theorem revealFold_onlyReveals (fuel : Nat) (b : Board) :
    ∀ (l : List Position) (st : Board × List Position),
      OnlyReveals b st.1 → OnlyReveals b (l.foldl (revealStep fuel) st).1 := by
  intro l
  induction l with
  | nil => intro st h; exact h
  | cons m t ihl =>
      intro st h
      rw [List.foldl_cons]
      exact ihl _ (onlyReveals_trans h (revealRec_onlyReveals fuel st.1 m.row m.col))

theorem revealFold_acc_sub (fuel : Nat) :
    ∀ (l : List Position) (st : Board × List Position) (q : Position),
      q ∈ st.2 → q ∈ (l.foldl (revealStep fuel) st).2 := by
  intro l
  induction l with
  | nil => intro st q h; exact h
  | cons m t ihl =>
      intro st q h
      rw [List.foldl_cons]
      apply ihl
      exact List.mem_append.mpr (Or.inl h)

theorem revealFold_closure (fuel : Nat) (R C : Nat)
    (hIH : ∀ (x : Board) (row col : Nat),
      hiddenCount x < fuel → row < x.rows → col < x.cols →
      (((x.cells ⟨row, col⟩).state = CellState.Hidden →
        (⟨row, col⟩ : Position) ∈ (revealRec fuel x row col).2) ∧
      (∀ q, q ∈ (revealRec fuel x row col).2 → (x.cells q).adjacentMines = 0 →
        ∀ n, n ∈ nbhd x.rows x.cols q.row q.col →
          ((revealRec fuel x row col).1.cells n).state ≠ CellState.Hidden))) :
    ∀ (l : List Position) (st : Board × List Position),
      st.1.rows = R → st.1.cols = C → hiddenCount st.1 < fuel →
      (∀ n, n ∈ l → n.row < R ∧ n.col < C) →
      (∀ n, n ∈ l →
        ((l.foldl (revealStep fuel) st).1.cells n).state ≠ CellState.Hidden) ∧
      (∀ q, q ∈ (l.foldl (revealStep fuel) st).2 → q ∉ st.2 →
        (st.1.cells q).adjacentMines = 0 →
        ∀ n, n ∈ nbhd R C q.row q.col →
          ((l.foldl (revealStep fuel) st).1.cells n).state ≠ CellState.Hidden) := by
  intro l
  induction l with
  | nil =>
      intro st _ _ _ _
      constructor
      · intro n hn; cases hn
      · intro q hq hq2 _ n _
        exact absurd hq hq2
  | cons p t ihl =>
      intro st hR hC hhid hl
      rw [List.foldl_cons]
      have hp := hl p (List.mem_cons_self p t)
      have hpR : p.row < st.1.rows := by rw [hR]; exact hp.1
      have hpC : p.col < st.1.cols := by rw [hC]; exact hp.2
      have hchild := hIH st.1 p.row p.col hhid hpR hpC
      have hspec := revealRec_spec fuel st.1 p.row p.col
      have honly : OnlyReveals st.1 (revealRec fuel st.1 p.row p.col).1 := hspec.1
      have hst1 : (revealStep fuel st p).1 = (revealRec fuel st.1 p.row p.col).1 := rfl
      have hst1R : (revealStep fuel st p).1.rows = R := by rw [hst1, honly.1, hR]
      have hst1C : (revealStep fuel st p).1.cols = C := by rw [hst1, honly.2.1, hC]
      have hst1hid : hiddenCount (revealStep fuel st p).1 < fuel := by
        rw [hst1]
        exact Nat.lt_of_le_of_lt honly.hiddenCount_mono hhid
      have hrest := ihl (revealStep fuel st p) hst1R hst1C hst1hid
        (fun n hn => hl n (List.mem_cons_of_mem p hn))
      have honly2 : OnlyReveals (revealStep fuel st p).1
          (t.foldl (revealStep fuel) (revealStep fuel st p)).1 :=
        revealFold_onlyReveals fuel _ t _ (onlyReveals_refl _)
      constructor
      · intro n hn
        rcases List.mem_cons.mp hn with hnp | hnt
        · subst hnp
          by_cases hH : (st.1.cells n).state = CellState.Hidden
          · have hmem := hchild.1 (by
              have hnn : (⟨n.row, n.col⟩ : Position) = n := by cases n; rfl
              rw [hnn]
              exact hH)
            have hnn : (⟨n.row, n.col⟩ : Position) = n := by cases n; rfl
            rw [hnn] at hmem
            have hrev := ((hspec.2 n).mp hmem).2
            apply honly2.nonHidden_mono n
            rw [hst1, hrev]
            intro hc; cases hc
          · apply honly2.nonHidden_mono n
            rw [hst1]
            exact honly.nonHidden_mono n hH
        · exact hrest.1 n hnt
      · intro q hq hqnotst hadj n hnmem
        by_cases hq1 : q ∈ (revealStep fuel st p).2
        · have hq2 : q ∈ st.2 ++ (revealRec fuel st.1 p.row p.col).2 := hq1
          rcases List.mem_append.mp hq2 with hmem | hmem
          · exact absurd hmem hqnotst
          · have hcl := hchild.2 q hmem hadj n (by rw [hR, hC]; exact hnmem)
            apply honly2.nonHidden_mono n
            rw [hst1]
            exact hcl
        · have hadj2 : ((revealStep fuel st p).1.cells q).adjacentMines = 0 := by
            rw [hst1, honly.adj_eq q]
            exact hadj
          exact hrest.2 q hq hq1 hadj2 n hnmem

theorem revealRec_closure : ∀ (fuel : Nat) (b : Board) (row col : Nat),
    hiddenCount b < fuel → row < b.rows → col < b.cols →
    (((b.cells ⟨row, col⟩).state = CellState.Hidden →
      (⟨row, col⟩ : Position) ∈ (revealRec fuel b row col).2) ∧
    (∀ q, q ∈ (revealRec fuel b row col).2 → (b.cells q).adjacentMines = 0 →
      ∀ n, n ∈ nbhd b.rows b.cols q.row q.col →
        ((revealRec fuel b row col).1.cells n).state ≠ CellState.Hidden)) := by
  intro fuel
  induction fuel with
  | zero =>
      intro b row col hhid _ _
      exact absurd hhid (Nat.not_lt_zero _)
  | succ fuel IH =>
      intro b row col hhid hrow hcol
      by_cases hH : (b.cells ⟨row, col⟩).state = CellState.Hidden
      · by_cases h0 : (b.cells ⟨row, col⟩).adjacentMines = 0
        · rw [revealRec_succ_flood fuel b row col hH h0]
          have hb1hid : hiddenCount (setCell b ⟨row, col⟩
              { b.cells ⟨row, col⟩ with state := CellState.Revealed }) < fuel := by
            have h2 := hiddenCount_set_reveal b ⟨row, col⟩ ⟨hrow, hcol⟩ hH
              { b.cells ⟨row, col⟩ with state := CellState.Revealed }
              (by intro hc; cases hc)
            omega
          have hfold := revealFold_closure fuel b.rows b.cols IH
            (nbhd b.rows b.cols row col)
            (setCell b ⟨row, col⟩ { b.cells ⟨row, col⟩ with state := CellState.Revealed },
             [⟨row, col⟩])
            rfl rfl hb1hid
            (fun n hn => nbhd_subset b.rows b.cols row col hrow hcol n hn)
          constructor
          · intro _
            exact revealFold_acc_sub fuel _ _ ⟨row, col⟩ (List.mem_singleton.mpr rfl)
          · intro q hq hadj n hn
            by_cases hqst : q ∈ ([⟨row, col⟩] : List Position)
            · have hqc : q = ⟨row, col⟩ := List.mem_singleton.mp hqst
              subst hqc
              exact hfold.1 n hn
            · apply hfold.2 q hq hqst ?_ n hn
              rw [setCell_cells]
              split
              · rename_i hqc
                rw [hqc] at hadj
                exact hadj
              · exact hadj
        · rw [revealRec_succ_stopAdj fuel b row col hH h0]
          constructor
          · intro _
            exact List.mem_singleton.mpr rfl
          · intro q hq hadj n hn
            have hqc : q = ⟨row, col⟩ := List.mem_singleton.mp hq
            subst hqc
            exact absurd hadj h0
      · rw [revealRec_succ_stop fuel b row col hH]
        constructor
        · intro hc
          exact absurd hc hH
        · intro q hq
          cases hq

theorem revealFold_reach (fuel : Nat) (b0 : Board) (p : Position)
    (hIH : ∀ (bc : Board) (row col : Nat),
      OnlyReveals b0 bc → ReachH b0 p ⟨row, col⟩ → row < b0.rows → col < b0.cols →
      ∀ q, q ∈ (revealRec fuel bc row col).2 → ReachH b0 p q) :
    ∀ (l : List Position) (st : Board × List Position),
      OnlyReveals b0 st.1 →
      (∀ n, n ∈ l → ReachH b0 p n ∧ n.row < b0.rows ∧ n.col < b0.cols) →
      (∀ q, q ∈ st.2 → ReachH b0 p q) →
      ∀ q, q ∈ (l.foldl (revealStep fuel) st).2 → ReachH b0 p q := by
  intro l
  induction l with
  | nil => intro st _ _ hacc q hq; exact hacc q hq
  | cons m t ihl =>
      intro st honly hl hacc q hq
      rw [List.foldl_cons] at hq
      have hm := hl m (List.mem_cons_self m t)
      have hmm : (⟨m.row, m.col⟩ : Position) = m := by cases m; rfl
      refine ihl (revealStep fuel st m) ?_ (fun n hn => hl n (List.mem_cons_of_mem _ hn)) ?_ q hq
      · exact onlyReveals_trans honly (revealRec_spec fuel st.1 m.row m.col).1
      · intro x hx
        have hx2 : x ∈ st.2 ++ (revealRec fuel st.1 m.row m.col).2 := hx
        rcases List.mem_append.mp hx2 with h | h
        · exact hacc x h
        · exact hIH st.1 m.row m.col honly (by rw [hmm]; exact hm.1) hm.2.1 hm.2.2 x h

theorem revealRec_reach (b0 : Board) (p : Position) :
    ∀ (fuel : Nat) (bc : Board) (row col : Nat),
      OnlyReveals b0 bc → ReachH b0 p ⟨row, col⟩ → row < b0.rows → col < b0.cols →
      ∀ q, q ∈ (revealRec fuel bc row col).2 → ReachH b0 p q := by
  intro fuel
  induction fuel with
  | zero => intro bc row col _ _ _ _ q hq; cases hq
  | succ fuel IH =>
      intro bc row col honly hreach hrow hcol q hq
      by_cases hH : (bc.cells ⟨row, col⟩).state = CellState.Hidden
      · by_cases h0 : (bc.cells ⟨row, col⟩).adjacentMines = 0
        · rw [revealRec_succ_flood fuel bc row col hH h0] at hq
          have hsrc := honly.hidden_source ⟨row, col⟩ hH
          have hadj0 : (b0.cells ⟨row, col⟩).adjacentMines = 0 := by
            rw [← honly.adj_eq ⟨row, col⟩]
            exact h0
          have hdims : nbhd bc.rows bc.cols row col = nbhd b0.rows b0.cols row col := by
            rw [honly.1, honly.2.1]
          refine revealFold_reach fuel b0 p IH (nbhd bc.rows bc.cols row col) _
            ?_ ?_ ?_ q hq
          · exact onlyReveals_trans honly (onlyReveals_setReveal bc ⟨row, col⟩ hH)
          · intro n hn
            rw [hdims] at hn
            refine ⟨ReachH.step hreach ⟨hrow, hcol⟩ hsrc.2 hadj0 hn, ?_⟩
            exact nbhd_subset b0.rows b0.cols row col hrow hcol n hn
          · intro x hx
            have hxc : x = ⟨row, col⟩ := List.mem_singleton.mp hx
            subst hxc
            exact hreach
        · rw [revealRec_succ_stopAdj fuel bc row col hH h0] at hq
          have hqc : q = ⟨row, col⟩ := List.mem_singleton.mp hq
          subst hqc
          exact hreach
      · rw [revealRec_succ_stop fuel bc row col hH] at hq
        cases hq

theorem reach_no_mine (b : Board) (p : Position) (hcons : Consistent b)
    (hp : (b.cells p).isMine = false) :
    ∀ q, ReachH b p q → (b.cells q).isMine = false := by
  intro q hq
  induction hq with
  | refl => exact hp
  | step hr hin hh ha hn ih =>
      rename_i q2 n2
      have hqq : (⟨q2.row, q2.col⟩ : Position) = q2 := by cases q2; rfl
      have hcount : countAdjacentMines b q2.row q2.col = 0 := by
        have h2 := hcons q2.row hin.1 q2.col hin.2 (by rw [hqq]; exact ih)
        rw [hqq] at h2
        rw [← h2]
        exact ha
      unfold countAdjacentMines at hcount
      have h3 := List.countP_eq_zero.mp hcount n2 hn
      exact Bool.not_eq_true _ ▸ h3

/-- C2 counterexample: on the consistent 1 x 3 mine-free all-zero board
whose middle cell is Flagged, the cell (0,2) lies in the connected
zero-adjacency region of the clicked cell (0,0) and is Hidden, yet the
reveal leaves it Hidden and does not list it: the expansion does not cover
the full zero-adjacency region when a Flagged cell blocks it. -/
theorem C2_counterexample_flagged_region :
    Consistent bC2x ∧ bC2x.isFirstClick = false ∧
    (bC2x.cells ⟨0, 0⟩).state = CellState.Hidden ∧
    (bC2x.cells ⟨0, 0⟩).isMine = false ∧
    (bC2x.cells ⟨0, 0⟩).adjacentMines = 0 ∧
    ReachZ bC2x ⟨0, 0⟩ ⟨0, 2⟩ ∧
    (bC2x.cells ⟨0, 2⟩).state = CellState.Hidden ∧
    (bC2x.cells ⟨0, 2⟩).adjacentMines = 0 ∧
    ¬ (⟨0, 2⟩ : Position) ∈ (revealCellFrom bC2x ⟨0, 0⟩).2.cellsRevealed ∧
    ((revealCellFrom bC2x ⟨0, 0⟩).1.cells ⟨0, 2⟩).state = CellState.Hidden := by
  refine ⟨by decide, by decide, by decide, by decide, by decide, ?_,
    by decide, by decide, by decide, by decide⟩
  have h1 : ReachZ bC2x ⟨0, 0⟩ ⟨0, 1⟩ :=
    ReachZ.step ReachZ.refl (by decide) (by decide) (by decide)
  exact ReachZ.step h1 (by decide) (by decide) (by decide)

/-- C2 (amended): after placement, on a board with consistent adjacency
counts, revealCell on a Hidden zero-adjacency non-mine in-range cell
reveals exactly the positions reachable from it through Hidden
zero-adjacency cells (the connected Hidden zero region plus the Hidden
cells bordering it; Flagged or already-Revealed cells block the expansion
and are never revealed), no mine cell is ever revealed, cellsRevealed
lists exactly the newly revealed positions, and neighbors are enumerated
in row-then-column order. -/
theorem C2_floodfill_amended (b : Board) (p : Position) (pf : Nat)
    (draws : Nat → Position)
    (hf : b.isFirstClick = false) (hcons : Consistent b) (hin : inRange b p)
    (hH : (b.cells p).state = CellState.Hidden) (hm : (b.cells p).isMine = false)
    (h0 : (b.cells p).adjacentMines = 0) :
    revealCell pf draws b p = some (revealCellFrom b p) ∧
    (revealCellFrom b p).2.success = true ∧
    (revealCellFrom b p).2.hitMine = false ∧
    (∀ q, q ∈ (revealCellFrom b p).2.cellsRevealed ↔
      (ReachH b p q ∧ (b.cells q).state = CellState.Hidden)) ∧
    (∀ q, q ∈ (revealCellFrom b p).2.cellsRevealed ↔
      ((b.cells q).state = CellState.Hidden ∧
       ((revealCellFrom b p).1.cells q).state = CellState.Revealed)) ∧
    (∀ q, ¬ (b.cells q).state = CellState.Hidden →
      (revealCellFrom b p).1.cells q = b.cells q) ∧
    (∀ q, (b.cells q).isMine = true →
      ¬ q ∈ (revealCellFrom b p).2.cellsRevealed) ∧
    (∀ r c, List.Pairwise posLT (nbhd b.rows b.cols r c)) := by
  have hflood := revealCellFrom_flood b p hH hm
  have hfuel : hiddenCount b < b.rows * b.cols + 1 := Nat.lt_succ_of_le (hiddenCount_le b)
  have hspec := revealRec_spec (b.rows * b.cols + 1) b p.row p.col
  have hcl := revealRec_closure (b.rows * b.cols + 1) b p.row p.col hfuel hin.1 hin.2
  have hqq : (⟨p.row, p.col⟩ : Position) = p := by cases p; rfl
  have hcells1 : (revealCellFrom b p).1 =
      (revealRec (b.rows * b.cols + 1) b p.row p.col).1 := by rw [hflood]
  have hcells2 : (revealCellFrom b p).2.cellsRevealed =
      (revealRec (b.rows * b.cols + 1) b p.row p.col).2 := by rw [hflood]
  have hsound : ∀ q, q ∈ (revealRec (b.rows * b.cols + 1) b p.row p.col).2 →
      ReachH b p q :=
    revealRec_reach b p (b.rows * b.cols + 1) b p.row p.col (onlyReveals_refl b)
      (by rw [hqq]; exact ReachH.refl) hin.1 hin.2
  have hcomplete : ∀ q, ReachH b p q → (b.cells q).state = CellState.Hidden →
      q ∈ (revealRec (b.rows * b.cols + 1) b p.row p.col).2 := by
    intro q hr
    induction hr with
    | refl =>
        intro _
        rw [← hqq]
        exact hcl.1 (by rw [hqq]; exact hH)
    | step hr2 hin2 hh2 ha2 hn2 ih =>
        rename_i q2 n2
        intro hhn
        have hq2mem := ih hh2
        have hnot := hcl.2 q2 hq2mem ha2 n2 hn2
        by_contra hmem
        have hcelleq : (revealRec (b.rows * b.cols + 1) b p.row p.col).1.cells n2 =
            b.cells n2 := by
          rcases hspec.1.2.2.2.2 n2 with he | ⟨hhid, he⟩
          · exact he
          · exact absurd ((hspec.2 n2).mpr ⟨hhid, by rw [he]⟩) hmem
        apply hnot
        rw [hcelleq]
        exact hhn
  refine ⟨revealCell_not_first pf draws b p hf, ?_, ?_, ?_, ?_, ?_, ?_,
    fun r c => nbhd_sorted b.rows b.cols r c⟩
  · rw [hflood]
  · rw [hflood]
  · intro q
    rw [hcells2]
    constructor
    · intro hq
      exact ⟨hsound q hq, ((hspec.2 q).mp hq).1⟩
    · rintro ⟨hr, hh⟩
      exact hcomplete q hr hh
  · intro q
    rw [hcells2, hcells1]
    exact hspec.2 q
  · intro q hq
    rw [hcells1]
    exact hspec.1.nonHidden_frame q hq
  · intro q hmq hqmem
    rw [hcells2] at hqmem
    have hnm := reach_no_mine b p hcons hm q (hsound q hqmem)
    rw [hnm] at hmq
    cases hmq

/-- C2 witness: the 2 x 2 mine-free all-Hidden zero-adjacency board at
(0,0) satisfies every hypothesis of the amended flood-fill theorem. -/
theorem C2_floodfill_amended_witness :
    (Consistent bW2 ∧ bW2.isFirstClick = false ∧
      (bW2.cells ⟨0, 0⟩).state = CellState.Hidden ∧
      (bW2.cells ⟨0, 0⟩).isMine = false ∧
      (bW2.cells ⟨0, 0⟩).adjacentMines = 0) ∧
    revealCell 0 drawsW0 bW2 ⟨0, 0⟩ = some (revealCellFrom bW2 ⟨0, 0⟩) ∧
    (revealCellFrom bW2 ⟨0, 0⟩).2.success = true ∧
    (revealCellFrom bW2 ⟨0, 0⟩).2.hitMine = false :=
  ⟨⟨by decide, by decide, by decide, by decide, by decide⟩,
    (C2_floodfill_amended bW2 ⟨0, 0⟩ 0 drawsW0 (by decide) (by decide) (by decide)
      (by decide) (by decide) (by decide)).1,
    (C2_floodfill_amended bW2 ⟨0, 0⟩ 0 drawsW0 (by decide) (by decide) (by decide)
      (by decide) (by decide) (by decide)).2.1,
    (C2_floodfill_amended bW2 ⟨0, 0⟩ 0 drawsW0 (by decide) (by decide) (by decide)
      (by decide) (by decide) (by decide)).2.2.1⟩

end Minesweeper
